import Mathlib

/-!
Verification of the LabelOps folder-watch ingestion daemon, a shallow
embedding of src/app/daemon.py and src/app/file_watcher.py.

Modelling conventions:
* Python strings are modelled as lists of characters (PyStr); str.lower,
  str.endswith and str.startswith become list operations (str.lower is
  restricted to ASCII, which is all the daemon's filenames use).
* Wall-clock instants from time.monotonic() are modelled as Nat ticks.
* The filesystem is a flat association list from path strings to file
  contents; directories are implicit and mkdir calls are no-ops.
* Path separators: Python on Windows splits on both slash kinds; the model
  splits on both and renders with a forward slash uniformly.
* Threads: the daemon's queue worker is single and the claims below are
  about the sequential per-call behaviour, so each Python method becomes a
  pure state-passing function.
-/

/-! ## Python string primitives -/

abbrev PyStr := List Char

/-- Python str.lower (ASCII range, matching Char.toLower). -/
def pyLower (s : PyStr) : PyStr := s.map Char.toLower

/-- Python str.endswith: the pattern is a suffix of the string. -/
def pyEndsWith (s pat : PyStr) : Bool := decide (pat <:+ s)

/-- Python str.startswith: the pattern is a prefix of the string. -/
def pyStartsWith (s pat : PyStr) : Bool := decide (pat <+: s)

/-! ## Python path model (pathlib PurePath and os.path, lexical parts) -/

/-- Path separators recognised by the model (Windows Python splits on both). -/
def isSep (c : Char) : Bool := c = '/' || c = '\\'

/-- Split a string at separator characters; never returns an empty list. -/
def splitSeps : PyStr → List PyStr
  | [] => [[]]
  | c :: rest =>
    if isSep c then [] :: splitSeps rest
    else
      match splitSeps rest with
      | [] => [[c]]
      | s :: ss => (c :: s) :: ss

/-- Parsed form of a pathlib PurePath: root flag plus the non-empty,
    non-dot components. -/
structure PyPath where
  isAbs : Bool
  comps : List PyStr
deriving DecidableEq

/-- Path(s), as a parsed value: leading separator makes it rooted, empty
    and single-dot components disappear. -/
def parsePath (s : PyStr) : PyPath :=
  { isAbs := match s with | c :: _ => isSep c | [] => false
    comps := (splitSeps s).filter (fun c => !(c == [] || c == ['.'])) }

/-- Join components with the forward-slash separator. -/
def joinComps : List PyStr → PyStr
  | [] => []
  | [c] => c
  | c :: cs => c ++ '/' :: joinComps cs

/-- Render a parsed path the way str(Path(...)) prints it. -/
def renderPath (p : PyPath) : PyStr :=
  if p.isAbs then '/' :: joinComps p.comps
  else
    match p.comps with
    | [] => ['.']
    | cs => joinComps cs

/-- str(Path(s)): pathlib's lexical normalisation. Note that this does NOT
    make a relative path absolute. -/
def strPath (s : PyStr) : PyStr := renderPath (parsePath s)

/-- Whether a path string is absolute (anchored at a root). -/
def pyIsAbsolute (s : PyStr) : Bool :=
  match s with
  | c :: _ => isSep c
  | [] => false

/-- Path(s).name: the final parsed component, or empty. -/
def pyName (s : PyStr) : PyStr := ((parsePath s).comps.getLast?).getD []

/-- os.path.basename: everything after the last separator. -/
def osBasename (s : PyStr) : PyStr := ((splitSeps s).getLast?).getD []

/-- os.path.join for a separator-free, non-absolute final component. -/
def osJoin (dir name : PyStr) : PyStr :=
  match dir.getLast? with
  | none => name
  | some c => if isSep c then dir ++ name else dir ++ '/' :: name

/-- pathlib's (stem, suffix) split of a file name: the suffix starts at the
    last dot, provided that dot is neither the first nor the last character
    of the name. -/
def pySplitExt (name : PyStr) : PyStr × PyStr :=
  match name.reverse.findIdx? (fun c => c == '.') with
  | none => (name, [])
  | some j =>
    if 0 < j ∧ j + 1 < name.length then
      (name.take (name.length - 1 - j), name.drop (name.length - 1 - j))
    else (name, [])

/-- Path(name).stem. -/
def pyStem (name : PyStr) : PyStr := (pySplitExt name).1

/-- Path(name).suffix. -/
def pySuffix (name : PyStr) : PyStr := (pySplitExt name).2

/-- Path(p).with_suffix(suf): replace the final component's suffix. -/
def pyWithSuffix (p : PyStr) (suf : PyStr) : PyStr :=
  let pp := parsePath p
  renderPath { pp with
    comps := pp.comps.dropLast ++ [pyStem ((pp.comps.getLast?).getD []) ++ suf] }

/-! ## FileAdmissionFilter (file_watcher._is_valid_txt, lines 128-137) -/

/-- file_watcher._is_valid_txt: name = Path(path).name; lower = name.lower();
    reject temp suffixes, backup tildes, and non-txt extensions. -/
def is_valid_txt (path : PyStr) : Bool :=
  let name := pyName path
  let lower := pyLower name
  if pyEndsWith lower (".tmp".data) || pyEndsWith lower (".part".data) then false
  else if pyEndsWith lower ['~'] || pyStartsWith lower ['~'] then false
  else if !(pyEndsWith lower (".txt".data)) then false
  else true

/-- Claim C6's description of the admission filter, written from the claim's
    words: a name is rejected iff it ends in ".tmp" or ".part", starts or
    ends with the backup marker, or does not end in ".txt" compared
    case-insensitively; accepted otherwise. -/
def validNameSpec (name : PyStr) : Bool :=
  !(pyEndsWith name (".tmp".data) || pyEndsWith name (".part".data) ||
    pyStartsWith name ['~'] || pyEndsWith name ['~'] ||
    !(pyEndsWith (pyLower name) (".txt".data)))

/-! ## RecentPathCache (file_watcher._RecentPaths, lines 35-62) -/

/-- RECENT_TTL_SECONDS (time in whole monotonic ticks). -/
def RECENT_TTL : Nat := 300

/-- RECENT_MAX. -/
def RECENT_MAX : Nat := 500

/-- _RecentPaths: an insertion-ordered map from path to monotonic insertion
    timestamp, plus the two dataclass parameters. -/
structure RecentPaths where
  ttl_seconds : Nat
  max_entries : Nat
  items : List (PyStr × Nat)
deriving DecidableEq

/-- The expiry part of _RecentPaths._prune: keep entries with
    now - ts <= ttl. -/
def pruneKeep (ttl now : Nat) (items : List (PyStr × Nat)) : List (PyStr × Nat) :=
  items.filter (fun e => !(decide (now - e.2 > ttl)))

/-- The capacity part of _RecentPaths._prune: while the cache is over
    capacity, pop the oldest (front) entry. -/
def capEvict (maxEntries : Nat) : List (PyStr × Nat) → List (PyStr × Nat)
  | [] => []
  | e :: rest =>
    if rest.length + 1 > maxEntries then capEvict maxEntries rest else e :: rest

/-- _RecentPaths._prune(now): expiry sweep, then capacity eviction. -/
def RecentPaths.prune (rp : RecentPaths) (now : Nat) : RecentPaths :=
  { rp with items := capEvict rp.max_entries (pruneKeep rp.ttl_seconds now rp.items) }

/-- _RecentPaths.seen(path): prune, then report membership among the
    remaining entries (the prune mutates the cache, so the new cache is
    returned alongside the answer). -/
def RecentPaths.seen (rp : RecentPaths) (path : PyStr) (now : Nat) :
    RecentPaths × Bool :=
  (rp.prune now, (rp.prune now).items.any (fun e => e.1 == path))

/-- _RecentPaths.add(path): dict assignment plus move_to_end puts the path
    at the back with the fresh timestamp, then prune. -/
def RecentPaths.add (rp : RecentPaths) (path : PyStr) (now : Nat) : RecentPaths :=
  RecentPaths.prune
    { rp with items := (rp.items.eraseP (fun e => e.1 == path)) ++ [(path, now)] } now

/-! ## WatchService._handle_path (file_watcher lines 97-110) -/

/-- One _handle_path invocation. tSeen is the monotonic clock at the seen
    call and tAdd the (no earlier) clock at the add call after the stability
    wait; stable is what _wait_for_stable returned. The Bool reports whether
    the admission callback was invoked (exceptions thrown by the callback are
    caught and logged, so they do not affect the cache or the flag). -/
def handle_path (rp : RecentPaths) (path : PyStr) (tSeen tAdd : Nat)
    (stable : Bool) : RecentPaths × Bool :=
  if !(is_valid_txt path) then (rp, false)
  else if (rp.seen path tSeen).2 then ((rp.seen path tSeen).1, false)
  else if stable then (((rp.seen path tSeen).1).add path tAdd, true)
  else ((rp.seen path tSeen).1, false)

/-- One raw notification dispatched to _handle_path. -/
structure HandleCall where
  path : PyStr
  tSeen : Nat
  tAdd : Nat
  stable : Bool
deriving DecidableEq

/-- Run a sequence of _handle_path invocations; returns the final cache and
    the per-call callback-fired flags. -/
def runHandle (rp : RecentPaths) : List HandleCall → RecentPaths × List Bool
  | [] => (rp, [])
  | c :: cs =>
    ((runHandle (handle_path rp c.path c.tSeen c.tAdd c.stable).1 cs).1,
      (handle_path rp c.path c.tSeen c.tAdd c.stable).2 ::
        (runHandle (handle_path rp c.path c.tSeen c.tAdd c.stable).1 cs).2)

/-- The cache a WatchService constructs: _RecentPaths() with the module
    defaults and no entries. -/
def freshRecentPaths : RecentPaths := ⟨RECENT_TTL, RECENT_MAX, []⟩

/-- Path used twice in the C5 counterexample trace. -/
def cexP : PyStr := "p.txt".data

/-- The i-th of 500 distinct valid .txt names, all distinct from cexP. -/
def mkCexName (i : Nat) : PyStr := Char.ofNat (19968 + i) :: (".txt".data)

/-- 500 distinct valid intermediate paths. -/
def cexNames : List PyStr := (List.range RECENT_MAX).map mkCexName

/-- The C5 counterexample trace: admit cexP, then 500 distinct other paths,
    then cexP again, all at monotonic time 0 (well within the TTL) and all
    stable. -/
def cexTrace : List HandleCall :=
  ⟨cexP, 0, 0, true⟩ ::
    (cexNames.map (fun n => ⟨n, 0, 0, true⟩) ++ [⟨cexP, 0, 0, true⟩])

/-! ## StabilityDetector (file_watcher._wait_for_stable and
    _can_open_exclusive, lines 140-179) -/

/-- STABLE_CHECKS. -/
def STABLE_CHECKS : Nat := 3

/-- What one loop iteration of _wait_for_stable observes about the file:
    either os.path.getsize raises FileNotFoundError, or the file is present
    with a size, a flag for whether open("rb") succeeds, and a flag for
    whether the msvcrt non-blocking lock would succeed. -/
inductive Poll where
  | missing : Poll
  | present (size : Nat) (readable : Bool) (lockOk : Bool) : Poll
deriving DecidableEq

/-- _can_open_exclusive: on Windows, open for reading and take the
    non-blocking lock; elsewhere, opening for reading suffices. Any OSError
    yields false. -/
def can_open_exclusive (isWindows : Bool) : Poll → Bool
  | .missing => false
  | .present _ readable lockOk => if isWindows then readable && lockOk else readable

/-- The loop's reset test: last_size is None or size != last_size. -/
def sizeChanged (last_size : Option Nat) (size : Nat) : Bool :=
  match last_size with
  | none => true
  | some s => size != s

/-- The polling loop of _wait_for_stable. The finite observation list stands
    for the polls that fit inside STABLE_TIMEOUT: exhausting it is the
    timeout. The result is the zero-based index of the poll at which the
    function returns true, or none when it times out (returns false). -/
def wait_for_stable_loop (isWindows : Bool) :
    List Poll → Option Nat → Nat → Nat → Option Nat
  | [], _, _, _ => none
  | poll :: rest, last_size, stable_hits, idx =>
    match poll with
    | .missing => wait_for_stable_loop isWindows rest last_size stable_hits (idx + 1)
    | .present size readable lockOk =>
      if can_open_exclusive isWindows (.present size readable lockOk) then some idx
      else if sizeChanged last_size size then
        wait_for_stable_loop isWindows rest (some size) 0 (idx + 1)
      else if stable_hits + 1 ≥ STABLE_CHECKS then some idx
      else wait_for_stable_loop isWindows rest (some size) (stable_hits + 1) (idx + 1)

/-- _wait_for_stable's boolean result over a poll trace. -/
def wait_for_stable (isWindows : Bool) (obs : List Poll) : Bool :=
  (wait_for_stable_loop isWindows obs none 0 0).isSome

/-- The sizes observed at the polls where the file exists. -/
def presentSizes (obs : List Poll) : List Nat :=
  obs.filterMap (fun p => match p with
    | .missing => none
    | .present size _ _ => some size)

/-- An exclusive lock (exclusive open) was obtainable at some poll. -/
def lockObtainable (isWindows : Bool) (obs : List Poll) : Prop :=
  ∃ p ∈ obs, can_open_exclusive isWindows p = true

/-- Four consecutive present polls saw the same size, i.e. three consecutive
    polls each observed the size unchanged from its predecessor. -/
def hasStableRun (obs : List Poll) : Prop :=
  ∃ pre post s, presentSizes obs = pre ++ s :: s :: s :: s :: post

/-- Zero-based index of the first poll at which the file exists and is
    readable. -/
def firstReadableIdx (obs : List Poll) : Option Nat :=
  obs.findIdx? (fun p => match p with
    | .missing => false
    | .present _ readable _ => readable)

/-- C10's counterexample poll trace: four polls of an existing but
    unreadable file with a constant size, then a readable poll. -/
def cexPolls : List Poll :=
  [.present 5 false false, .present 5 false false, .present 5 false false,
    .present 5 false false, .present 5 true false]

/-! ## DaemonRunner (src/app/daemon.py) -/

/-- Resolved client settings for watch operations (daemon.ClientWatch). The
    opaque settings blob that is passed through to the pipeline is omitted:
    the daemon never inspects it. -/
structure ClientWatch where
  client_id : PyStr
  in_txt : PyStr
  archive : PyStr
deriving DecidableEq

/-- The filesystem: existing files as a flat path-to-content association
    (all paths in canonical forward-slash form). -/
abbrev FS := List (PyStr × PyStr)

/-- Content of the file at a path, if it exists. -/
def fsLookup (fs : FS) (p : PyStr) : Option PyStr := List.lookup p fs

/-- os.path.exists / Path.exists. -/
def fsExists (fs : FS) (p : PyStr) : Bool := (fsLookup fs p).isSome

/-- Delete a path. -/
def fsRemove (fs : FS) (p : PyStr) : FS := fs.filter (fun e => !(e.1 == p))

/-- Create or overwrite a file. -/
def fsWrite (fs : FS) (p c : PyStr) : FS := fsRemove fs p ++ [(p, c)]

/-- Path(src).replace(dst): move src over dst (silently overwriting dst);
    none models the FileNotFoundError when src does not exist. -/
def pyReplace (fs : FS) (src dst : PyStr) : Option FS :=
  match fsLookup fs src with
  | none => none
  | some c => some (fsWrite (fsRemove fs src) dst c)

/-- Path(dir) / name, rendered (dir parsed, the separator-free name
    appended). -/
def pathJoinName (dir : PyStr) (name : PyStr) : PyStr :=
  renderPath ⟨(parsePath dir).isAbs, (parsePath dir).comps ++ [name]⟩

/-- Path(p).relative_to(Path(q)) succeeds: purely lexical component-prefix
    test (plus agreement of the root flags). -/
def canRelativeTo (p q : PyStr) : Bool :=
  (parsePath q).isAbs == (parsePath p).isAbs &&
    (parsePath q).comps.isPrefixOf (parsePath p).comps

/-- daemon._resolve_client_watch (lines 149-157): first ClientWatch whose
    in_txt directory contains the path. -/
def resolve_client_watch (watches : List ClientWatch) (path : PyStr) :
    Option ClientWatch :=
  watches.find? (fun w => canRelativeTo path w.in_txt)

/-- daemon._find_archive_path (lines 143-147):
    os.path.join(archive, os.path.basename(path)) for the resolved client. -/
def find_archive_path (watches : List ClientWatch) (path : PyStr) :
    Option PyStr :=
  match resolve_client_watch watches path with
  | none => none
  | some w => some (osJoin w.archive (osBasename path))

/-- DaemonRunner's mutable state: the processed ledger, the ingestion queue
    and the filesystem the daemon manipulates. -/
structure DaemonState where
  processed : List PyStr
  queue : List PyStr
  fs : FS
deriving DecidableEq

/-- daemon._already_processed (lines 129-137): under the ledger lock, check
    the ledger, then the archive-existence fallback; the fallback also
    inserts the path into the ledger when it fires. -/
def already_processed (watches : List ClientWatch) (s : DaemonState)
    (path : PyStr) : DaemonState × Bool :=
  if path ∈ s.processed then (s, true)
  else
    match find_archive_path watches path with
    | some ap =>
      if fsExists s.fs ap then
        ({ s with processed := s.processed ++ [path] }, true)
      else (s, false)
    | none => (s, false)

/-- daemon._mark_processed (lines 139-141). -/
def mark_processed (s : DaemonState) (path : PyStr) : DaemonState :=
  { s with processed := s.processed ++ [path] }

/-- daemon._enqueue_path (lines 121-127): resolved = str(Path(path)); log
    and drop when _already_processed, else push resolved. -/
def enqueue_path (watches : List ClientWatch) (s : DaemonState)
    (path : PyStr) : DaemonState :=
  if (already_processed watches s (strPath path)).2 then
    (already_processed watches s (strPath path)).1
  else
    { (already_processed watches s (strPath path)).1 with
        queue := (already_processed watches s (strPath path)).1.queue
          ++ [strPath path] }

/-- The collision rename: f-string stem_timestamp-suffix. -/
def timestamped_name (name ts : PyStr) : PyStr :=
  pyStem name ++ '_' :: ts ++ pySuffix name

/-- daemon._archive_file (lines 211-218): destination is archive/name, or a
    timestamp-suffixed name when a same-named file exists; the move is
    Path.replace. none models the source file having vanished, in which case
    the exception propagates to the caller's except-branch. -/
def archive_file (fs : FS) (source_path archive_dir ts : PyStr) :
    Option (FS × PyStr) :=
  let destination0 := pathJoinName archive_dir (pyName source_path)
  let destination :=
    if fsExists fs destination0 then
      pathJoinName archive_dir (timestamped_name (pyName source_path) ts)
    else destination0
  match pyReplace fs source_path destination with
  | none => none
  | some fs2 => some (fs2, destination)

/-- The per-client quarantine directory:
    Path("D:\LabelOps\Clients") / client_id / FAILURES. -/
def failuresDir (client_id : PyStr) : PyPath :=
  ⟨(parsePath ("D:\\LabelOps\\Clients".data)).isAbs,
    (parsePath ("D:\\LabelOps\\Clients".data)).comps
      ++ [client_id, "FAILURES".data]⟩

/-- str(failures_dir / nm): the rendered quarantine destination for a given
    final name component. -/
def quarantinePath (client_id nm : PyStr) : PyStr :=
  renderPath ⟨(failuresDir client_id).isAbs,
    (failuresDir client_id).comps ++ [nm]⟩

/-- daemon._move_to_failures (lines 221-232): same collision policy as the
    archive move; a FileNotFoundError from the move is swallowed and the
    unmoved destination string is returned. -/
def move_to_failures (fs : FS) (source_path client_id ts : PyStr) :
    FS × PyStr :=
  let destination0 := quarantinePath client_id (pyName source_path)
  let destination :=
    if fsExists fs destination0 then
      quarantinePath client_id (timestamped_name (pyName source_path) ts)
    else destination0
  match pyReplace fs source_path destination with
  | none => (fs, destination)
  | some fs2 => (fs2, destination)

/-- daemon._write_failure_details (lines 235-239): write the formatted
    traceback next to the quarantined file under the .error.txt suffix. -/
def write_failure_details (fs : FS) (failure_path detail : PyStr) : FS :=
  if failure_path = [] then fs
  else fsWrite fs (pyWithSuffix failure_path (".error.txt".data)) detail

/-- Outcome of one _process_path call (the Python function only logs; the
    tag makes the branch taken explicit for the claims). -/
inductive Outcome where
  | skipped : Outcome
  | noClient : Outcome
  | vanished : Outcome
  | archived (dest : PyStr) : Outcome
  | quarantined (dest : PyStr) : Outcome
deriving DecidableEq

/-- The except-branch of _process_path (lines 204-208): move to the
    failures directory, write the error details, mark processed. -/
def handle_failure (s : DaemonState) (path client_id detail ts : PyStr) :
    DaemonState × Outcome :=
  let r := move_to_failures s.fs path client_id ts
  (mark_processed { s with fs := write_failure_details r.1 r.2 detail } path,
    .quarantined r.2)

/-- daemon._process_path (lines 170-208). attempt is the combined result of
    reading the file and calling the external pipeline (both inside the same
    try): ok, or an exception carrying its formatted traceback. ts is the
    timestamp string used by the collision renames. -/
def process_path (watches : List ClientWatch) (s : DaemonState) (path : PyStr)
    (attempt : Except PyStr Unit) (ts : PyStr) : DaemonState × Outcome :=
  if (already_processed watches s path).2 then
    ((already_processed watches s path).1, .skipped)
  else
    match resolve_client_watch watches path with
    | none => ((already_processed watches s path).1, .noClient)
    | some w =>
      if !(fsExists (already_processed watches s path).1.fs path) then
        ((already_processed watches s path).1, .vanished)
      else
        match attempt with
        | .error detail =>
          handle_failure (already_processed watches s path).1 path
            w.client_id detail ts
        | .ok _ =>
          match archive_file (already_processed watches s path).1.fs path
              w.archive ts with
          | some r =>
            (mark_processed
              { (already_processed watches s path).1 with fs := r.1 } path,
              .archived r.2)
          | none =>
            -- the archive move raised FileNotFoundError (unreachable here,
            -- since the existence check just passed and nothing else runs
            -- in between in the sequential model); Python would fall into
            -- the same except-branch with that exception's traceback
            handle_failure (already_processed watches s path).1 path
              w.client_id ("FileNotFoundError".data) ts

/-! ## Theorems -/

/-- Char.toLower of an ASCII uppercase letter is never the tilde. -/
theorem toLower_upper_ne_tilde : ∀ n, n < 26 → Char.toLower (Char.ofNat (65 + n)) ≠ '~' := by
  decide

/-- Char.toLower maps only the tilde to the tilde. -/
theorem toLower_eq_tilde {c : Char} : Char.toLower c = '~' ↔ c = '~' := by
  constructor
  · intro h
    by_cases hu : 65 ≤ c.toNat ∧ c.toNat ≤ 90
    · exfalso
      have hlt : c.toNat - 65 < 26 := by omega
      have h65 : 65 + (c.toNat - 65) = c.toNat := by omega
      have haux := toLower_upper_ne_tilde (c.toNat - 65) hlt
      rw [h65, Char.ofNat_toNat] at haux
      exact haux h
    · have hfix : Char.toLower c = c := by
        simp only [Char.toLower]
        rw [if_neg]
        exact fun hh => hu ⟨hh.1, hh.2⟩
      rw [hfix] at h
      exact h
  · intro h
    subst h
    decide

/-- A single tilde is a prefix of the lowered string iff it is a prefix of
    the string itself. -/
theorem tilde_prefix_map_toLower {l : List Char} :
    (['~'] <+: l.map Char.toLower) ↔ (['~'] <+: l) := by
  cases l with
  | nil => simp
  | cons c t =>
    simp only [List.map_cons, List.cons_prefix_cons, List.nil_prefix, and_true]
    rw [eq_comm, @eq_comm _ '~' c]
    exact toLower_eq_tilde

/-- Unfolding of is_valid_txt into its five conditions on the lowered name. -/
theorem is_valid_txt_eq_true_iff {path : PyStr} :
    is_valid_txt path = true ↔
      (¬((".tmp".data : PyStr) <:+ pyLower (pyName path)) ∧
       ¬((".part".data : PyStr) <:+ pyLower (pyName path)) ∧
       ¬((['~'] : PyStr) <:+ pyLower (pyName path)) ∧
       ¬((['~'] : PyStr) <+: pyLower (pyName path)) ∧
       ((".txt".data : PyStr) <:+ pyLower (pyName path))) := by
  simp only [is_valid_txt, pyEndsWith, pyStartsWith]
  by_cases h1 : (".tmp".data : PyStr) <:+ pyLower (pyName path) <;>
    by_cases h2 : (".part".data : PyStr) <:+ pyLower (pyName path) <;>
      by_cases h3 : (['~'] : PyStr) <:+ pyLower (pyName path) <;>
        by_cases h4 : (['~'] : PyStr) <+: pyLower (pyName path) <;>
          by_cases h5 : (".txt".data : PyStr) <:+ pyLower (pyName path) <;>
            simp [h1, h2, h3, h4, h5]

/-- Unfolding of validNameSpec into its five conditions. -/
theorem validNameSpec_eq_true_iff {n : PyStr} :
    validNameSpec n = true ↔
      (¬((".tmp".data : PyStr) <:+ n) ∧ ¬((".part".data : PyStr) <:+ n) ∧
       ¬((['~'] : PyStr) <+: n) ∧ ¬((['~'] : PyStr) <:+ n) ∧
       ((".txt".data : PyStr) <:+ pyLower n)) := by
  simp only [validNameSpec, pyEndsWith, pyStartsWith]
  by_cases h1 : (".tmp".data : PyStr) <:+ n <;>
    by_cases h2 : (".part".data : PyStr) <:+ n <;>
      by_cases h3 : (['~'] : PyStr) <+: n <;>
        by_cases h4 : (['~'] : PyStr) <:+ n <;>
          by_cases h5 : (".txt".data : PyStr) <:+ pyLower n <;>
            simp [h1, h2, h3, h4, h5]

/-- C6: _is_valid_txt is a pure function that rejects exactly the names
    ending in a temporary-file suffix (.tmp or .part), the names starting or
    ending with the backup marker tilde, and the names whose extension is not
    .txt case-insensitively; it accepts all other names. -/
theorem claim6_is_valid_txt_matches_spec (path : PyStr) :
    is_valid_txt path = validNameSpec (pyName path) := by
  rw [Bool.eq_iff_iff, is_valid_txt_eq_true_iff, validNameSpec_eq_true_iff]
  constructor
  · rintro ⟨h1, h2, h3, h4, h5⟩
    refine ⟨?_, ?_, ?_, ?_, h5⟩
    · intro hc
      have hm := List.IsSuffix.map Char.toLower hc
      have hconc : (".tmp".data : PyStr).map Char.toLower = ".tmp".data := by decide
      rw [hconc] at hm
      exact h1 hm
    · intro hc
      have hm := List.IsSuffix.map Char.toLower hc
      have hconc : (".part".data : PyStr).map Char.toLower = ".part".data := by decide
      rw [hconc] at hm
      exact h2 hm
    · intro hc
      exact h4 (tilde_prefix_map_toLower.mpr hc)
    · intro hc
      have hm := List.IsSuffix.map Char.toLower hc
      have hconc : ((['~'] : PyStr)).map Char.toLower = ['~'] := by decide
      rw [hconc] at hm
      exact h3 hm
  · rintro ⟨h1, h2, h3, h4, h5⟩
    refine ⟨?_, ?_, ?_, ?_, h5⟩
    · intro hc
      rcases List.suffix_or_suffix_of_suffix hc h5 with h | h
      · exact (by decide : ¬((".tmp".data : PyStr) <:+ ".txt".data)) h
      · exact (by decide : ¬((".txt".data : PyStr) <:+ ".tmp".data)) h
    · intro hc
      rcases List.suffix_or_suffix_of_suffix hc h5 with h | h
      · exact (by decide : ¬((".part".data : PyStr) <:+ ".txt".data)) h
      · exact (by decide : ¬((".txt".data : PyStr) <:+ ".part".data)) h
    · intro hc
      rcases List.suffix_or_suffix_of_suffix hc h5 with h | h
      · exact (by decide : ¬((['~'] : PyStr) <:+ ".txt".data)) h
      · exact (by decide : ¬((".txt".data : PyStr) <:+ ['~'])) h
    · intro hc
      exact h3 (tilde_prefix_map_toLower.mp hc)

/-- capEvict leaves a list already within capacity unchanged. -/
theorem capEvict_of_length_le {maxE : Nat} {l : List (PyStr × Nat)}
    (h : l.length ≤ maxE) : capEvict maxE l = l := by
  cases l with
  | nil => rfl
  | cons e rest =>
    unfold capEvict
    rw [if_neg]
    simp only [List.length_cons] at h
    omega

/-- capEvict never leaves more than the maximum number of entries. -/
theorem capEvict_length_le (maxE : Nat) :
    ∀ l : List (PyStr × Nat), (capEvict maxE l).length ≤ maxE
  | [] => by simp [capEvict]
  | e :: rest => by
    unfold capEvict
    by_cases h : rest.length + 1 > maxE
    · rw [if_pos h]
      exact capEvict_length_le maxE rest
    · rw [if_neg h]
      simp only [List.length_cons]
      omega

/-- capEvict only removes entries from the front (oldest first). -/
theorem capEvict_suffix (maxE : Nat) :
    ∀ l : List (PyStr × Nat), capEvict maxE l <:+ l
  | [] => by simp [capEvict]
  | e :: rest => by
    unfold capEvict
    by_cases h : rest.length + 1 > maxE
    · rw [if_pos h]
      exact (capEvict_suffix maxE rest).trans (List.suffix_cons e rest)
    · rw [if_neg h]

/-- capEvict keeps any within-capacity tail of the queue intact. -/
theorem capEvict_append_right (maxE : Nat) (l₂ : List (PyStr × Nat))
    (h : l₂.length ≤ maxE) :
    ∀ l₁ : List (PyStr × Nat), ∃ l₁', capEvict maxE (l₁ ++ l₂) = l₁' ++ l₂
  | [] => ⟨[], by simpa using capEvict_of_length_le h⟩
  | e :: l₁ => by
    rw [List.cons_append]
    unfold capEvict
    by_cases h2 : (l₁ ++ l₂).length + 1 > maxE
    · rw [if_pos h2]
      exact capEvict_append_right maxE l₂ h l₁
    · rw [if_neg h2]
      exact ⟨e :: l₁, rfl⟩

/-- The expiry sweep keeps an entry whose age is within the TTL. -/
theorem pruneKeep_cons_keep {ttl now ts : Nat} (p : PyStr) (h : now ≤ ts + ttl)
    (l : List (PyStr × Nat)) :
    pruneKeep ttl now ((p, ts) :: l) = (p, ts) :: pruneKeep ttl now l := by
  have hkeep : (!(decide (now - ts > ttl))) = true := by
    simp only [Bool.not_eq_true', decide_eq_false_iff_not]
    omega
  simp only [pruneKeep, List.filter_cons, hkeep]
  rfl

/-- The expiry sweep is the identity when every entry is within the TTL. -/
theorem pruneKeep_eq_self {ttl now : Nat} {l : List (PyStr × Nat)}
    (h : ∀ e ∈ l, now ≤ e.2 + ttl) : pruneKeep ttl now l = l := by
  apply List.filter_eq_self.mpr
  intro e he
  simp only [Bool.not_eq_true', decide_eq_false_iff_not]
  have := h e he
  omega

/-- The expiry sweep distributes over append. -/
theorem pruneKeep_append (ttl now : Nat) (l₁ l₂ : List (PyStr × Nat)) :
    pruneKeep ttl now (l₁ ++ l₂) = pruneKeep ttl now l₁ ++ pruneKeep ttl now l₂ := by
  simp [pruneKeep]

/-- C7: after every seen or add operation the cache holds at most
    max_entries entries; capacity evictions drop oldest-insertion entries
    first (what survives is a suffix of the pre-eviction queue); and seen(p)
    answers true only if p carries a timestamp within the TTL of now. -/
theorem claim7_cache_invariants (rp : RecentPaths) (p : PyStr) (now : Nat) :
    ((rp.seen p now).1.items.length ≤ rp.max_entries ∧
      (rp.add p now).items.length ≤ rp.max_entries) ∧
    ((rp.seen p now).1.items <:+ pruneKeep rp.ttl_seconds now rp.items ∧
      (rp.add p now).items <:+
        pruneKeep rp.ttl_seconds now
          (rp.items.eraseP (fun e => e.1 == p) ++ [(p, now)])) ∧
    ((rp.seen p now).2 = true →
      ∃ ts, (p, ts) ∈ rp.items ∧ now - ts ≤ rp.ttl_seconds) := by
  refine ⟨⟨?_, ?_⟩, ⟨?_, ?_⟩, ?_⟩
  · exact capEvict_length_le _ _
  · exact capEvict_length_le _ _
  · exact capEvict_suffix _ _
  · exact capEvict_suffix _ _
  · intro h
    simp only [RecentPaths.seen, RecentPaths.prune, List.any_eq_true] at h
    obtain ⟨e, he, hbe⟩ := h
    obtain ⟨q, ts⟩ := e
    have hmem : (q, ts) ∈ pruneKeep rp.ttl_seconds now rp.items :=
      (capEvict_suffix _ _).sublist.subset he
    have hmem2 := List.mem_filter.mp hmem
    have hq : q = p := by simpa using hbe
    subst hq
    refine ⟨ts, hmem2.1, ?_⟩
    have := hmem2.2
    simp only [Bool.not_eq_true', decide_eq_false_iff_not] at this
    omega

/-- Witness for C7 at a concrete cache state. -/
theorem claim7_cache_invariants_witness :
    ∃ ts, (("w.txt".data, ts) ∈ [(("w.txt".data : PyStr), 3)]) ∧
      5 - ts ≤ (RecentPaths.mk RECENT_TTL RECENT_MAX [("w.txt".data, 3)]).ttl_seconds :=
  (claim7_cache_invariants
    (RecentPaths.mk RECENT_TTL RECENT_MAX [("w.txt".data, 3)])
    ("w.txt".data) 5).2.2 (by decide)

/-- eraseP with a predicate false at a marked entry keeps that entry,
    without growing either side around it. -/
theorem eraseP_split_keep {pred : PyStr × Nat → Bool} (p : PyStr) (t₀ : Nat)
    (hp : pred (p, t₀) = false) :
    ∀ f b : List (PyStr × Nat),
      ∃ f2 b2, (f ++ (p, t₀) :: b).eraseP pred = f2 ++ (p, t₀) :: b2 ∧
        b2.length ≤ b.length ∧ f2.length ≤ f.length
  | [], b => by
    refine ⟨[], b.eraseP pred, ?_, List.length_eraseP_le b, Nat.le_refl _⟩
    simp [List.eraseP_cons, hp]
  | x :: f, b => by
    by_cases hx : pred x
    · refine ⟨f, b, ?_, Nat.le_refl _, by simp⟩
      simp [List.eraseP_cons_of_pos hx]
    · obtain ⟨f2, b2, heq, hb2, hf2⟩ := eraseP_split_keep p t₀ hp f b
      refine ⟨x :: f2, b2, ?_, hb2, by simpa using Nat.succ_le_succ hf2⟩
      simp [List.eraseP_cons_of_neg hx, heq]

/-- _handle_path never changes the cache's TTL or capacity parameters. -/
theorem handle_path_fields (rp : RecentPaths) (q : PyStr) (t1 t2 : Nat)
    (st : Bool) :
    (handle_path rp q t1 t2 st).1.ttl_seconds = rp.ttl_seconds ∧
    (handle_path rp q t1 t2 st).1.max_entries = rp.max_entries := by
  unfold handle_path
  split
  · exact ⟨rfl, rfl⟩
  · split
    · exact ⟨rfl, rfl⟩
    · split
      · exact ⟨rfl, rfl⟩
      · exact ⟨rfl, rfl⟩


/-- One _handle_path call keeps a live cache entry (p, t₀), provided the
    call's clock readings are within the TTL of t₀ and the eviction budget
    is not exhausted; the entry accumulates at most one new entry behind it
    and the cache stays within capacity. -/
theorem handle_path_keeps (rp : RecentPaths) (c : HandleCall) (p : PyStr)
    (t₀ n : Nat)
    (hsplit : ∃ f b, rp.items = f ++ (p, t₀) :: b ∧ b.length ≤ n)
    (hlen : rp.items.length ≤ rp.max_entries)
    (hbudget : n + 2 ≤ rp.max_entries)
    (ht1 : c.tSeen ≤ t₀ + rp.ttl_seconds)
    (ht2 : c.tAdd ≤ t₀ + rp.ttl_seconds) :
    (∃ f b, (handle_path rp c.path c.tSeen c.tAdd c.stable).1.items
        = f ++ (p, t₀) :: b ∧ b.length ≤ n + 1) ∧
    (handle_path rp c.path c.tSeen c.tAdd c.stable).1.items.length
        ≤ rp.max_entries := by
  obtain ⟨f, b, hitems, hb⟩ := hsplit
  have hpk : pruneKeep rp.ttl_seconds c.tSeen rp.items
      = pruneKeep rp.ttl_seconds c.tSeen f ++
          (p, t₀) :: pruneKeep rp.ttl_seconds c.tSeen b := by
    rw [hitems, pruneKeep_append, pruneKeep_cons_keep p ht1]
  have hpklen : (pruneKeep rp.ttl_seconds c.tSeen rp.items).length
      ≤ rp.max_entries :=
    Nat.le_trans (List.length_filter_le _ _) hlen
  have hprune : (rp.prune c.tSeen).items
      = pruneKeep rp.ttl_seconds c.tSeen rp.items := by
    simp only [RecentPaths.prune]
    exact capEvict_of_length_le hpklen
  have hbsmall : (pruneKeep rp.ttl_seconds c.tSeen b).length ≤ n :=
    Nat.le_trans (List.length_filter_le _ _) hb
  by_cases hvalid : is_valid_txt c.path
  case neg =>
    unfold handle_path
    rw [if_pos (by simp [hvalid])]
    exact ⟨⟨f, b, hitems, Nat.le_succ_of_le hb⟩, hlen⟩
  by_cases hseen : (rp.seen c.path c.tSeen).2 = true
  · unfold handle_path
    rw [if_neg (by simp [hvalid]), if_pos hseen]
    constructor
    · exact ⟨_, _, by rw [RecentPaths.seen, hprune, hpk],
        Nat.le_succ_of_le hbsmall⟩
    · rw [RecentPaths.seen, hprune]
      exact hpklen
  by_cases hstable : c.stable = true
  case neg =>
    unfold handle_path
    rw [if_neg (by simp [hvalid]), if_neg hseen, if_neg hstable]
    constructor
    · exact ⟨_, _, by rw [RecentPaths.seen, hprune, hpk],
        Nat.le_succ_of_le hbsmall⟩
    · rw [RecentPaths.seen, hprune]
      exact hpklen
  -- admission branch: the path was not seen, so it differs from p
  have hne : ((p : PyStr) == c.path) = false := by
    rcases hany : ((rp.prune c.tSeen).items.any (fun e => e.1 == c.path)) with _ | _
    · have hmem : ((p, t₀) : PyStr × Nat) ∈ (rp.prune c.tSeen).items := by
        rw [hprune, hpk]
        exact List.mem_append_right _ (List.mem_cons_self _ _)
      simpa using List.any_eq_false.mp hany (p, t₀) hmem
    · exfalso
      apply hseen
      rw [RecentPaths.seen]
      exact hany
  obtain ⟨f2, b2, herase, hb2, hf2⟩ :=
    @eraseP_split_keep (fun e => e.1 == c.path) p t₀ (by simpa using hne)
      (pruneKeep rp.ttl_seconds c.tSeen f) (pruneKeep rp.ttl_seconds c.tSeen b)
  unfold handle_path
  rw [if_neg (by simp [hvalid]), if_neg hseen, if_pos hstable]
  have hsitems : ((rp.seen c.path c.tSeen).1).items.eraseP (fun e => e.1 == c.path)
        ++ [(c.path, c.tAdd)]
      = f2 ++ (p, t₀) :: (b2 ++ [(c.path, c.tAdd)]) := by
    rw [RecentPaths.seen, hprune, hpk, herase]
    simp
  have hb2len : (b2 ++ [(c.path, c.tAdd)]).length ≤ n + 1 := by
    simp only [List.length_append, List.length_cons, List.length_nil]
    have := Nat.le_trans hb2 hbsmall
    omega
  have htails : ((p, t₀) ::
      pruneKeep rp.ttl_seconds c.tAdd (b2 ++ [(c.path, c.tAdd)])).length
      ≤ rp.max_entries := by
    simp only [List.length_cons]
    have h1 : (pruneKeep rp.ttl_seconds c.tAdd (b2 ++ [(c.path, c.tAdd)])).length
        ≤ n + 1 := Nat.le_trans (List.length_filter_le _ _) hb2len
    omega
  obtain ⟨f3, hcap⟩ := capEvict_append_right rp.max_entries
    ((p, t₀) :: pruneKeep rp.ttl_seconds c.tAdd (b2 ++ [(c.path, c.tAdd)]))
    htails (pruneKeep rp.ttl_seconds c.tAdd f2)
  have hfield1 : (rp.seen c.path c.tSeen).1.ttl_seconds = rp.ttl_seconds := rfl
  have hfield2 : (rp.seen c.path c.tSeen).1.max_entries = rp.max_entries := rfl
  constructor
  · refine ⟨f3, pruneKeep rp.ttl_seconds c.tAdd (b2 ++ [(c.path, c.tAdd)]), ?_, ?_⟩
    · simp only [RecentPaths.add, RecentPaths.prune, hfield1, hfield2]
      rw [hsitems, pruneKeep_append, pruneKeep_cons_keep p ht2]
      exact hcap
    · exact Nat.le_trans (List.length_filter_le _ _) hb2len
  · simp only [RecentPaths.add, RecentPaths.prune, hfield1, hfield2]
    exact capEvict_length_le _ _

/-- Running a sequence of _handle_path calls keeps a live entry (p, t₀) in
    the cache as long as there are fewer calls than the eviction budget and
    every call happens within the TTL of t₀. -/
theorem runHandle_keeps (p : PyStr) (t₀ : Nat) :
    ∀ (cs : List HandleCall) (rp : RecentPaths) (n : Nat),
      (∃ f b, rp.items = f ++ (p, t₀) :: b ∧ b.length ≤ n) →
      rp.items.length ≤ rp.max_entries →
      n + cs.length + 1 ≤ rp.max_entries →
      (∀ c ∈ cs, c.tSeen ≤ t₀ + rp.ttl_seconds ∧ c.tAdd ≤ t₀ + rp.ttl_seconds) →
      (∃ f b, (runHandle rp cs).1.items = f ++ (p, t₀) :: b) ∧
      (runHandle rp cs).1.ttl_seconds = rp.ttl_seconds ∧
      (runHandle rp cs).1.max_entries = rp.max_entries ∧
      (runHandle rp cs).1.items.length ≤ rp.max_entries
  | [], rp, n, hsplit, hlen, _, _ => by
    obtain ⟨f, b, hi, _⟩ := hsplit
    exact ⟨⟨f, b, hi⟩, rfl, rfl, hlen⟩
  | c :: cs, rp, n, hsplit, hlen, hbudget, htimes => by
    have hstep := handle_path_keeps rp c p t₀ n hsplit hlen
      (by simp only [List.length_cons] at hbudget; omega)
      (htimes c (List.mem_cons_self c cs)).1 (htimes c (List.mem_cons_self c cs)).2
    have hfields := handle_path_fields rp c.path c.tSeen c.tAdd c.stable
    have hrec := runHandle_keeps p t₀ cs
      (handle_path rp c.path c.tSeen c.tAdd c.stable).1 (n + 1)
      hstep.1 (by rw [hfields.2]; exact hstep.2)
      (by rw [hfields.2]; simp only [List.length_cons] at hbudget; omega)
      (by rw [hfields.1]; exact fun d hd => htimes d (List.mem_cons_of_mem c hd))
    simp only [runHandle]
    refine ⟨hrec.1, ?_, ?_, ?_⟩
    · rw [hrec.2.1, hfields.1]
    · rw [hrec.2.2.1, hfields.2]
    · rw [hfields.2] at hrec
      exact hrec.2.2.2

/-- _handle_path on a valid path that the cache has seen returns without
    firing the callback. -/
theorem handle_path_seen_true {rp : RecentPaths} {q : PyStr} {t1 t2 : Nat}
    {st : Bool} (hv : is_valid_txt q = true) (hs : (rp.seen q t1).2 = true) :
    handle_path rp q t1 t2 st = ((rp.seen q t1).1, false) := by
  simp [handle_path, hv, hs]

/-- _handle_path on a valid, unseen, stable path adds it and fires the
    callback. -/
theorem handle_path_admits {rp : RecentPaths} {q : PyStr} {t1 t2 : Nat}
    (hv : is_valid_txt q = true) (hs : (rp.seen q t1).2 = false) :
    handle_path rp q t1 t2 true = (((rp.seen q t1).1).add q t2, true) := by
  simp [handle_path, hv, hs]

/-- C5 (amended): once _handle_path(p) has invoked the admission callback
    for p (adding p to the cache at clock t₀ = the add-time of that call),
    any later _handle_path(p) whose clock is within the cache TTL of t₀
    returns without invoking the callback again, provided fewer than
    max_entries _handle_path invocations happen in between (each within the
    TTL of t₀); with at least that many intervening admissions p can be
    capacity-evicted and the callback can fire a second time. -/
theorem claim5_amended (rp₀ : RecentPaths) (c₀ : HandleCall)
    (cs : List HandleCall) (p : PyStr) (t' tA : Nat) (st : Bool)
    (hp : c₀.path = p)
    (hmax : 1 ≤ rp₀.max_entries)
    (hfired : (handle_path rp₀ c₀.path c₀.tSeen c₀.tAdd c₀.stable).2 = true)
    (hcs : cs.length < rp₀.max_entries)
    (htimes : ∀ c ∈ cs, c.tSeen ≤ c₀.tAdd + rp₀.ttl_seconds ∧
      c.tAdd ≤ c₀.tAdd + rp₀.ttl_seconds)
    (ht' : t' ≤ c₀.tAdd + rp₀.ttl_seconds) :
    (handle_path
      (runHandle (handle_path rp₀ c₀.path c₀.tSeen c₀.tAdd c₀.stable).1 cs).1
      p t' tA st).2 = false := by
  subst hp
  -- unpack what a fired first call means
  by_cases hvalid : is_valid_txt c₀.path
  case neg => simp [handle_path, hvalid] at hfired
  by_cases hseen0 : (rp₀.seen c₀.path c₀.tSeen).2 = true
  case pos => simp [handle_path, hvalid, hseen0] at hfired
  by_cases hstable0 : c₀.stable = true
  case neg => simp [handle_path, hvalid, hseen0, hstable0] at hfired
  have hstate : (handle_path rp₀ c₀.path c₀.tSeen c₀.tAdd c₀.stable).1
      = ((rp₀.seen c₀.path c₀.tSeen).1).add c₀.path c₀.tAdd := by
    unfold handle_path
    rw [if_neg (by simp [hvalid]), if_neg hseen0, if_pos hstable0]
  -- the state after the first call: p sits at the back with timestamp c₀.tAdd
  have hfield1 : (rp₀.seen c₀.path c₀.tSeen).1.ttl_seconds = rp₀.ttl_seconds := rfl
  have hfield2 : (rp₀.seen c₀.path c₀.tSeen).1.max_entries = rp₀.max_entries := rfl
  have hpk : pruneKeep rp₀.ttl_seconds c₀.tAdd
      (((rp₀.seen c₀.path c₀.tSeen).1).items.eraseP (fun e => e.1 == c₀.path)
        ++ [(c₀.path, c₀.tAdd)])
      = pruneKeep rp₀.ttl_seconds c₀.tAdd
          (((rp₀.seen c₀.path c₀.tSeen).1).items.eraseP (fun e => e.1 == c₀.path))
        ++ [(c₀.path, c₀.tAdd)] := by
    rw [pruneKeep_append, pruneKeep_cons_keep c₀.path (Nat.le_add_right _ _)]
    rfl
  have hbase : ∃ f b,
      (handle_path rp₀ c₀.path c₀.tSeen c₀.tAdd c₀.stable).1.items
        = f ++ (c₀.path, c₀.tAdd) :: b ∧ b.length ≤ 0 := by
    rw [hstate]
    simp only [RecentPaths.add, RecentPaths.prune, hfield1, hfield2]
    rw [hpk]
    obtain ⟨f3, hcap⟩ := capEvict_append_right rp₀.max_entries
      [(c₀.path, c₀.tAdd)] (by simpa using hmax)
      (pruneKeep rp₀.ttl_seconds c₀.tAdd
        (((rp₀.seen c₀.path c₀.tSeen).1).items.eraseP (fun e => e.1 == c₀.path)))
    exact ⟨f3, [], by simpa using hcap, Nat.le_refl _⟩
  have hbaselen : (handle_path rp₀ c₀.path c₀.tSeen c₀.tAdd c₀.stable).1.items.length
      ≤ rp₀.max_entries := by
    rw [hstate]
    simp only [RecentPaths.add, RecentPaths.prune, hfield1, hfield2]
    exact capEvict_length_le _ _
  have hbfields := handle_path_fields rp₀ c₀.path c₀.tSeen c₀.tAdd c₀.stable
  have hrun := runHandle_keeps c₀.path c₀.tAdd cs
    (handle_path rp₀ c₀.path c₀.tSeen c₀.tAdd c₀.stable).1 0
    hbase (by rw [hbfields.2]; exact hbaselen)
    (by rw [hbfields.2]; omega)
    (by rw [hbfields.1]; exact htimes)
  -- the later call for p: it is still seen, so the callback does not fire
  obtain ⟨⟨f, b, hitems⟩, httl, hmaxe, hlen⟩ := hrun
  have hkeepp : pruneKeep
      (runHandle (handle_path rp₀ c₀.path c₀.tSeen c₀.tAdd c₀.stable).1 cs).1.ttl_seconds
      t' (runHandle (handle_path rp₀ c₀.path c₀.tSeen c₀.tAdd c₀.stable).1 cs).1.items
      = pruneKeep rp₀.ttl_seconds t' f ++
          (c₀.path, c₀.tAdd) :: pruneKeep rp₀.ttl_seconds t' b := by
    rw [httl, hbfields.1, hitems, pruneKeep_append, pruneKeep_cons_keep c₀.path ht']
  have hseenp : ((runHandle (handle_path rp₀ c₀.path c₀.tSeen c₀.tAdd c₀.stable).1 cs).1.seen
      c₀.path t').2 = true := by
    simp only [RecentPaths.seen, RecentPaths.prune, List.any_eq_true]
    refine ⟨(c₀.path, c₀.tAdd), ?_, by simp⟩
    have hsub : capEvict
        (runHandle (handle_path rp₀ c₀.path c₀.tSeen c₀.tAdd c₀.stable).1 cs).1.max_entries
        (pruneKeep
          (runHandle (handle_path rp₀ c₀.path c₀.tSeen c₀.tAdd c₀.stable).1 cs).1.ttl_seconds
          t' (runHandle (handle_path rp₀ c₀.path c₀.tSeen c₀.tAdd c₀.stable).1 cs).1.items)
        = pruneKeep
          (runHandle (handle_path rp₀ c₀.path c₀.tSeen c₀.tAdd c₀.stable).1 cs).1.ttl_seconds
          t' (runHandle (handle_path rp₀ c₀.path c₀.tSeen c₀.tAdd c₀.stable).1 cs).1.items := by
      apply capEvict_of_length_le
      calc (pruneKeep _ t' _).length
          ≤ (runHandle (handle_path rp₀ c₀.path c₀.tSeen c₀.tAdd c₀.stable).1 cs).1.items.length :=
            List.length_filter_le _ _
        _ ≤ _ := by
            rw [hmaxe, hbfields.2]
            rw [hbfields.2] at hlen
            exact hlen
    rw [hsub, hkeepp]
    exact List.mem_append_right _ (List.mem_cons_self _ _)
  rw [handle_path_seen_true hvalid hseenp]

/-- Witness for the amended C5 at a concrete one-admission trace. -/
theorem claim5_amended_witness :
    (handle_path
      (runHandle (handle_path freshRecentPaths ("w2.txt".data) 0 0 true).1 []).1
      ("w2.txt".data) 1 2 true).2 = false :=
  claim5_amended freshRecentPaths ⟨"w2.txt".data, 0, 0, true⟩ []
    ("w2.txt".data) 1 2 true rfl (by decide) (by decide) (by decide)
    (fun c hc => absurd hc (List.not_mem_nil c)) (by decide)

/-- A cache whose entries all carry timestamp 0 is untouched by a prune at
    clock 0 when within capacity. -/
theorem prune_zero_id (start : List (PyStr × Nat))
    (hts : ∀ e ∈ start, e.2 = 0)
    (hlen : start.length ≤ RECENT_MAX) :
    RecentPaths.prune ⟨RECENT_TTL, RECENT_MAX, start⟩ 0
      = ⟨RECENT_TTL, RECENT_MAX, start⟩ := by
  simp only [RecentPaths.prune]
  rw [pruneKeep_eq_self (fun e _ => Nat.zero_le _), capEvict_of_length_le hlen]

/-- seen at clock 0 on an all-zero cache not containing q answers false. -/
theorem seen_zero_fresh (start : List (PyStr × Nat)) (q : PyStr)
    (hts : ∀ e ∈ start, e.2 = 0)
    (hlen : start.length ≤ RECENT_MAX)
    (hfresh : ∀ e ∈ start, e.1 ≠ q) :
    RecentPaths.seen ⟨RECENT_TTL, RECENT_MAX, start⟩ q 0
      = (⟨RECENT_TTL, RECENT_MAX, start⟩, false) := by
  have h2 : (start.any fun e => e.1 == q) = false :=
    List.any_eq_false.mpr (fun e he => by simpa using hfresh e he)
  simp only [RecentPaths.seen, prune_zero_id start hts hlen, h2]

/-- add at clock 0 of a fresh path appends it, when within capacity. -/
theorem add_zero_fresh (start : List (PyStr × Nat)) (q : PyStr)
    (hts : ∀ e ∈ start, e.2 = 0)
    (hlen : start.length + 1 ≤ RECENT_MAX)
    (hfresh : ∀ e ∈ start, e.1 ≠ q) :
    RecentPaths.add ⟨RECENT_TTL, RECENT_MAX, start⟩ q 0
      = ⟨RECENT_TTL, RECENT_MAX, start ++ [(q, 0)]⟩ := by
  have her : start.eraseP (fun e => e.1 == q) = start :=
    List.eraseP_of_forall_not (fun e he => by simpa using hfresh e he)
  simp only [RecentPaths.add, her]
  refine prune_zero_id (start ++ [(q, 0)]) ?_ (by simpa using hlen)
  intro e he
  rcases List.mem_append.mp he with h | h
  · exact hts e h
  · simp only [List.mem_singleton] at h
    rw [h]

/-- Filling the cache with fresh valid paths while within capacity: every
    call fires the callback and the entries append in order. -/
theorem runHandle_fresh_fill :
    ∀ (names : List PyStr) (start : List (PyStr × Nat)),
      (∀ q ∈ names, is_valid_txt q = true) →
      names.Nodup →
      (∀ q ∈ names, ∀ e ∈ start, e.1 ≠ q) →
      (∀ e ∈ start, e.2 = 0) →
      start.length + names.length ≤ RECENT_MAX →
      runHandle ⟨RECENT_TTL, RECENT_MAX, start⟩
          (names.map (fun nm => ⟨nm, 0, 0, true⟩))
        = (⟨RECENT_TTL, RECENT_MAX, start ++ names.map (fun nm => (nm, 0))⟩,
            names.map (fun _ => true))
  | [], start, _, _, _, _, _ => by simp [runHandle]
  | q :: names, start, hv, hnd, hfresh, hts, hlen => by
    have hlen0 : start.length ≤ RECENT_MAX := by
      simp only [List.length_cons] at hlen
      omega
    have hfq : ∀ e ∈ start, e.1 ≠ q :=
      fun e he => hfresh q (List.mem_cons_self q names) e he
    have hseen := seen_zero_fresh start q hts hlen0 hfq
    have hadd := add_zero_fresh start q hts
      (by simp only [List.length_cons] at hlen; omega) hfq
    have hstep : handle_path ⟨RECENT_TTL, RECENT_MAX, start⟩ q 0 0 true
        = (⟨RECENT_TTL, RECENT_MAX, start ++ [(q, 0)]⟩, true) := by
      rw [handle_path_admits (hv q (List.mem_cons_self q names)) (by rw [hseen]),
        hseen, hadd]
    have hqnotin : q ∉ names := (List.nodup_cons.mp hnd).1
    have hrec := runHandle_fresh_fill names (start ++ [(q, 0)])
      (fun r hr => hv r (List.mem_cons_of_mem q hr))
      (List.nodup_cons.mp hnd).2
      (by
        intro r hr e he
        rcases List.mem_append.mp he with h | h
        · exact hfresh r (List.mem_cons_of_mem q hr) e h
        · simp only [List.mem_singleton] at h
          rw [h]
          intro hqr
          have hq2 : q = r := hqr
          exact hqnotin (by rw [hq2]; exact hr))
      (by
        intro e he
        rcases List.mem_append.mp he with h | h
        · exact hts e h
        · simp only [List.mem_singleton] at h
          rw [h])
      (by simp only [List.length_append, List.length_singleton,
            List.length_cons, List.length_nil] at hlen ⊢; omega)
    simp only [List.map_cons, runHandle, hstep, hrec]
    simp [List.append_assoc]

/-- Admitting one more fresh valid path into a cache exactly at capacity
    evicts the oldest entry. -/
theorem handle_path_fresh_evict (q : PyStr) (e0 : PyStr × Nat)
    (rest : List (PyStr × Nat))
    (hv : is_valid_txt q = true)
    (hfresh : ∀ e ∈ e0 :: rest, e.1 ≠ q)
    (hts : ∀ e ∈ e0 :: rest, e.2 = 0)
    (hlen : rest.length + 1 = RECENT_MAX) :
    handle_path ⟨RECENT_TTL, RECENT_MAX, e0 :: rest⟩ q 0 0 true
      = (⟨RECENT_TTL, RECENT_MAX, rest ++ [(q, 0)]⟩, true) := by
  have hseen := seen_zero_fresh (e0 :: rest) q hts
    (by simp only [List.length_cons]; omega) hfresh
  rw [handle_path_admits hv (by rw [hseen]), hseen]
  have her : (e0 :: rest).eraseP (fun e => e.1 == q) = e0 :: rest :=
    List.eraseP_of_forall_not (fun e he => by simpa using hfresh e he)
  simp only [RecentPaths.add, RecentPaths.prune, her]
  have htsall : ∀ e ∈ (e0 :: rest) ++ [(q, 0)], 0 ≤ e.2 + RECENT_TTL :=
    fun e _ => Nat.zero_le _
  rw [pruneKeep_eq_self htsall]
  have hcap : capEvict RECENT_MAX ((e0 :: rest) ++ [(q, 0)])
      = rest ++ [(q, 0)] := by
    rw [List.cons_append]
    unfold capEvict
    rw [if_pos (by simp only [List.length_append, List.length_singleton]; omega)]
    exact capEvict_of_length_le
      (by simp only [List.length_append, List.length_singleton]; omega)
  rw [hcap]

/-- A valid path absent from the cache is admitted (the callback fires),
    whatever else the cache holds. -/
theorem handle_path_refire (p : PyStr) (items : List (PyStr × Nat))
    (hv : is_valid_txt p = true)
    (hfresh : ∀ e ∈ items, e.1 ≠ p)
    (hts : ∀ e ∈ items, e.2 = 0)
    (hlen : items.length ≤ RECENT_MAX) :
    (handle_path ⟨RECENT_TTL, RECENT_MAX, items⟩ p 0 0 true).2 = true := by
  have hseen := seen_zero_fresh items p hts hlen hfresh
  rw [handle_path_admits hv (by rw [hseen])]

set_option maxRecDepth 100000 in
/-- Every counterexample name passes the admission filter. -/
theorem mkCexName_valid : ∀ i, i < RECENT_MAX → is_valid_txt (mkCexName i) = true := by
  decide

set_option maxRecDepth 100000 in
/-- The head characters of the counterexample names decode faithfully. -/
theorem mkCexName_head_toNat :
    ∀ i, i < RECENT_MAX → (Char.ofNat (19968 + i)).toNat = 19968 + i := by
  decide

/-- The counterexample names are pairwise distinct. -/
theorem mkCexName_ne (i j : Nat) (hi : i < RECENT_MAX) (hj : j < RECENT_MAX)
    (hne : i ≠ j) : mkCexName i ≠ mkCexName j := by
  intro h
  have h1 := mkCexName_head_toNat i hi
  have h2 := mkCexName_head_toNat j hj
  simp only [mkCexName, List.cons.injEq] at h
  have h3 := congrArg Char.toNat h.1
  rw [h1, h2] at h3
  omega

/-- No counterexample name equals cexP. -/
theorem mkCexName_ne_cexP (i : Nat) (hi : i < RECENT_MAX) :
    mkCexName i ≠ cexP := by
  intro h
  have hh := congrArg List.head? h
  have hmk : (mkCexName i).head? = some (Char.ofNat (19968 + i)) := rfl
  have hcp : cexP.head? = some 'p' := rfl
  rw [hmk, hcp, Option.some.injEq] at hh
  have h3 := congrArg Char.toNat hh
  rw [mkCexName_head_toNat i hi] at h3
  have hp : ('p').toNat = 112 := rfl
  rw [hp] at h3
  omega

/-- The counterexample names have no duplicates. -/
theorem cexNames_nodup : cexNames.Nodup := by
  refine List.Nodup.map_on ?_ (List.nodup_range _)
  intro x hx y hy hxy
  by_contra hne
  exact mkCexName_ne x y (List.mem_range.mp hx) (List.mem_range.mp hy) hne hxy

/-- runHandle distributes over trace concatenation. -/
theorem runHandle_append (rp : RecentPaths) (xs ys : List HandleCall) :
    runHandle rp (xs ++ ys)
      = ((runHandle (runHandle rp xs).1 ys).1,
          (runHandle rp xs).2 ++ (runHandle (runHandle rp xs).1 ys).2) := by
  induction xs generalizing rp with
  | nil => simp [runHandle]
  | cons c xs ih => simp [runHandle, ih]

/-- C5 counterexample: in the concrete trace cexTrace every call carries
    monotonic clock 0 (so the repeated admission of cexP is well within the
    cache TTL of its first admission), the first and last calls are both for
    cexP, the first call fires the admission callback, and the last call
    fires it again: the 500 intermediate admissions capacity-evict cexP from
    the RecentPathCache, so the callback fires twice for cexP within the
    TTL. -/
theorem claim5_counterexample :
    cexTrace.head?.map HandleCall.path = some cexP ∧
    cexTrace.getLast?.map HandleCall.path = some cexP ∧
    (∀ c ∈ cexTrace, c.tSeen = 0 ∧ c.tAdd = 0) ∧
    (runHandle freshRecentPaths cexTrace).2.head? = some true ∧
    (runHandle freshRecentPaths cexTrace).2.getLast? = some true := by
  have h500 : RECENT_MAX = 499 + 1 := rfl
  have hsplitnames : cexNames
      = (List.range 499).map mkCexName ++ [mkCexName 499] := by
    rw [cexNames, h500, List.range_succ, List.map_append]
    rfl
  have hstep0 : handle_path freshRecentPaths cexP 0 0 true
      = (⟨RECENT_TTL, RECENT_MAX, [(cexP, 0)]⟩, true) := by decide
  -- phase 1: the first 499 fresh names fill the cache to capacity
  have hphase1 := runHandle_fresh_fill ((List.range 499).map mkCexName)
    [(cexP, 0)]
    (by
      intro q hq
      obtain ⟨i, hi, rfl⟩ := List.mem_map.mp hq
      exact mkCexName_valid i (Nat.lt_trans (List.mem_range.mp hi) (by omega)))
    (by
      refine List.Nodup.map_on ?_ (List.nodup_range _)
      intro x hx y hy hxy
      by_contra hne
      exact mkCexName_ne x y (Nat.lt_trans (List.mem_range.mp hx) (by omega))
        (Nat.lt_trans (List.mem_range.mp hy) (by omega)) hne hxy)
    (by
      intro q hq e he
      obtain ⟨i, hi, rfl⟩ := List.mem_map.mp hq
      simp only [List.mem_singleton] at he
      rw [he]
      exact (mkCexName_ne_cexP i
        (Nat.lt_trans (List.mem_range.mp hi) (by omega))).symm)
    (by
      intro e he
      simp only [List.mem_singleton] at he
      rw [he])
    (by simp [RECENT_MAX])
  -- phase 2: the 500th fresh name evicts cexP
  have hphase2 := handle_path_fresh_evict (mkCexName 499) (cexP, 0)
    (((List.range 499).map mkCexName).map (fun nm => (nm, 0)))
    (mkCexName_valid 499 (by omega))
    (by
      intro e he
      rcases List.mem_cons.mp he with h | h
      · rw [h]
        exact (mkCexName_ne_cexP 499 (by omega)).symm
      · obtain ⟨nm, hnm, rfl⟩ := List.mem_map.mp h
        obtain ⟨i, hi, rfl⟩ := List.mem_map.mp hnm
        exact mkCexName_ne i 499
          (Nat.lt_trans (List.mem_range.mp hi) (by omega)) (by omega)
          (Nat.ne_of_lt (List.mem_range.mp hi)))
    (by
      intro e he
      rcases List.mem_cons.mp he with h | h
      · rw [h]
      · obtain ⟨nm, hnm, rfl⟩ := List.mem_map.mp h
        rfl)
    (by simp [RECENT_MAX])
  -- phase 3: cexP is gone, so its second admission fires the callback again
  have hphase3 := handle_path_refire cexP
    ((((List.range 499).map mkCexName).map (fun nm => (nm, 0)))
      ++ [(mkCexName 499, 0)])
    (by decide)
    (by
      intro e he
      rcases List.mem_append.mp he with h | h
      · obtain ⟨nm, hnm, rfl⟩ := List.mem_map.mp h
        obtain ⟨i, hi, rfl⟩ := List.mem_map.mp hnm
        exact mkCexName_ne_cexP i (Nat.lt_trans (List.mem_range.mp hi) (by omega))
      · simp only [List.mem_singleton] at h
        rw [h]
        exact mkCexName_ne_cexP 499 (by omega))
    (by
      intro e he
      rcases List.mem_append.mp he with h | h
      · obtain ⟨nm, hnm, rfl⟩ := List.mem_map.mp h
        rfl
      · simp only [List.mem_singleton] at h
        rw [h])
    (by simp [RECENT_MAX])
  -- single-step unfoldings of runHandle, to avoid recursive rewriting
  have hnil : ∀ rp : RecentPaths, runHandle rp [] = (rp, []) := fun rp => rfl
  have hcons : ∀ (rp : RecentPaths) (p : PyStr) (t1 t2 : Nat) (st : Bool)
      (cs : List HandleCall),
      runHandle rp (⟨p, t1, t2, st⟩ :: cs)
        = ((runHandle (handle_path rp p t1 t2 st).1 cs).1,
            (handle_path rp p t1 t2 st).2 ::
              (runHandle (handle_path rp p t1 t2 st).1 cs).2) :=
    fun rp p t1 t2 st cs => rfl
  refine ⟨rfl, ?_, ?_, ?_, ?_⟩
  · have hconcat : cexTrace
        = (⟨cexP, 0, 0, true⟩ :: cexNames.map (fun n => ⟨n, 0, 0, true⟩))
          ++ [⟨cexP, 0, 0, true⟩] := by
      simp [cexTrace]
    rw [hconcat, List.getLast?_concat]
    rfl
  · intro c hc
    simp only [cexTrace, List.mem_cons, List.mem_append, List.mem_map,
      List.mem_singleton] at hc
    rcases hc with rfl | ⟨n, _, rfl⟩ | rfl | h
    · exact ⟨rfl, rfl⟩
    · exact ⟨rfl, rfl⟩
    · exact ⟨rfl, rfl⟩
    · exact absurd h (List.not_mem_nil c)
  · rw [show cexTrace
        = (⟨cexP, 0, 0, true⟩ : HandleCall) ::
            (cexNames.map (fun n => ⟨n, 0, 0, true⟩) ++ [⟨cexP, 0, 0, true⟩])
        from rfl, hcons, hstep0]
    rfl
  · rw [show cexTrace
        = (⟨cexP, 0, 0, true⟩ : HandleCall) ::
            (cexNames.map (fun n => ⟨n, 0, 0, true⟩) ++ [⟨cexP, 0, 0, true⟩])
        from rfl, hcons, hstep0]
    have hmid : cexNames.map (fun n => (⟨n, 0, 0, true⟩ : HandleCall))
        = ((List.range 499).map mkCexName).map (fun n => ⟨n, 0, 0, true⟩)
          ++ [(⟨mkCexName 499, 0, 0, true⟩ : HandleCall)] := by
      rw [hsplitnames, List.map_append]
      rfl
    rw [hmid, List.append_assoc, runHandle_append, hphase1,
      List.singleton_append, List.singleton_append, hcons, hphase2, hcons,
      hphase3, hnil]
    rw [show (true :: (((List.range 499).map mkCexName).map (fun _ => true)
        ++ true :: [true]))
        = (true :: (((List.range 499).map mkCexName).map (fun _ => true)
            ++ [true])) ++ [true] by
      rw [List.cons_append, List.append_assoc, List.singleton_append]]
    exact List.getLast?_concat _

/-- The loop's outcome does not depend on the reporting index (only the
    reported position shifts). -/
theorem wait_for_stable_loop_isSome_idx (isWindows : Bool) :
    ∀ (obs : List Poll) (last : Option Nat) (hits idx idx2 : Nat),
      (wait_for_stable_loop isWindows obs last hits idx).isSome
        = (wait_for_stable_loop isWindows obs last hits idx2).isSome
  | [], _, _, _, _ => rfl
  | .missing :: rest, last, hits, idx, idx2 =>
    wait_for_stable_loop_isSome_idx isWindows rest last hits (idx + 1) (idx2 + 1)
  | .present size r l :: rest, last, hits, idx, idx2 => by
    simp only [wait_for_stable_loop]
    by_cases hcan : can_open_exclusive isWindows (.present size r l) = true
    · simp [hcan]
    · rw [Bool.not_eq_true] at hcan
      simp only [hcan, Bool.false_eq_true, if_false]
      by_cases hch : sizeChanged last size = true
      · simp only [hch, if_true]
        exact wait_for_stable_loop_isSome_idx isWindows rest (some size) 0
          (idx + 1) (idx2 + 1)
      · rw [Bool.not_eq_true] at hch
        simp only [hch, Bool.false_eq_true, if_false]
        by_cases hhits : hits + 1 ≥ STABLE_CHECKS
        · simp [hhits]
        · simp only [hhits, if_false]
          exact wait_for_stable_loop_isSome_idx isWindows rest (some size)
            (hits + 1) (idx + 1) (idx2 + 1)

/-- Generalised soundness of the polling loop: a true result means a lock
    was obtainable at some poll, or a full equal-size run occurs among the
    observed sizes, or the loop was already part-way through a run on
    last_size and the leading observed sizes complete it. -/
theorem wait_for_stable_loop_sound (isWindows : Bool) :
    ∀ (obs : List Poll) (last : Option Nat) (hits idx : Nat),
      hits + 1 ≤ STABLE_CHECKS →
      (wait_for_stable_loop isWindows obs last hits idx).isSome = true →
      lockObtainable isWindows obs ∨ hasStableRun obs ∨
        (∃ s, last = some s ∧
          (presentSizes obs).take (STABLE_CHECKS - hits)
            = List.replicate (STABLE_CHECKS - hits) s)
  | [], last, hits, idx, hh, hres => by
    simp [wait_for_stable_loop] at hres
  | .missing :: rest, last, hits, idx, hh, hres => by
    have hres' : (wait_for_stable_loop isWindows rest last hits (idx + 1)).isSome
        = true := by
      simpa [wait_for_stable_loop] using hres
    rcases wait_for_stable_loop_sound isWindows rest last hits (idx + 1) hh hres'
      with h | h | h
    · obtain ⟨p, hp, hcan⟩ := h
      exact Or.inl ⟨p, List.mem_cons_of_mem _ hp, hcan⟩
    · obtain ⟨pre, post, s, hps⟩ := h
      exact Or.inr (Or.inl ⟨pre, post, s, by simpa [presentSizes] using hps⟩)
    · obtain ⟨s, hlast, htake⟩ := h
      exact Or.inr (Or.inr ⟨s, hlast, by simpa [presentSizes] using htake⟩)
  | .present size r l :: rest, last, hits, idx, hh, hres => by
    have hps : presentSizes (.present size r l :: rest) = size :: presentSizes rest := by
      simp [presentSizes]
    by_cases hcan : can_open_exclusive isWindows (.present size r l) = true
    · exact Or.inl ⟨.present size r l, List.mem_cons_self _ _, hcan⟩
    · rw [Bool.not_eq_true] at hcan
      simp only [wait_for_stable_loop, hcan, Bool.false_eq_true, if_false] at hres
      by_cases hch : sizeChanged last size = true
      · -- reset branch: the counter restarts on this size
        simp only [hch, if_true] at hres
        rcases wait_for_stable_loop_sound isWindows rest (some size) 0 (idx + 1)
          (by simp [STABLE_CHECKS]) hres with h | h | h
        · obtain ⟨p, hp, hc⟩ := h
          exact Or.inl ⟨p, List.mem_cons_of_mem _ hp, hc⟩
        · obtain ⟨pre, post, s, hrun⟩ := h
          exact Or.inr (Or.inl ⟨size :: pre, post, s,
            by rw [hps, hrun, List.cons_append]⟩)
        · obtain ⟨s, hsome, htake⟩ := h
          have hs : s = size := by
            injection hsome with h2
            exact h2.symm
          subst hs
          refine Or.inr (Or.inl ⟨[], (presentSizes rest).drop 3, s, ?_⟩)
          have hsplit : presentSizes rest
              = (presentSizes rest).take 3 ++ (presentSizes rest).drop 3 :=
            (List.take_append_drop 3 (presentSizes rest)).symm
          have h3 : STABLE_CHECKS - 0 = 3 := rfl
          rw [h3] at htake
          rw [hps]
          calc s :: presentSizes rest
              = s :: ((presentSizes rest).take 3 ++ (presentSizes rest).drop 3) := by
                rw [← hsplit]
            _ = [] ++ s :: s :: s :: s :: (presentSizes rest).drop 3 := by
                rw [htake]
                rfl
      · -- unchanged branch
        rw [Bool.not_eq_true] at hch
        have hlast : ∃ s, last = some s ∧ size = s := by
          rcases last with _ | s
          · simp [sizeChanged] at hch
          · refine ⟨s, rfl, ?_⟩
            simpa [sizeChanged] using hch
        obtain ⟨s, hsome, hsz⟩ := hlast
        subst hsz
        simp only [hch, Bool.false_eq_true, if_false] at hres
        by_cases hhits : hits + 1 ≥ STABLE_CHECKS
        · -- returns true here: hits must be exactly STABLE_CHECKS - 1
          have hhits2 : hits = 2 := by
            simp only [STABLE_CHECKS] at hh hhits
            omega
          refine Or.inr (Or.inr ⟨size, hsome, ?_⟩)
          subst hhits2
          rw [hps]
          rfl
        · simp only [hhits, if_false] at hres
          rcases wait_for_stable_loop_sound isWindows rest (some size) (hits + 1)
            (idx + 1) (by simp only [STABLE_CHECKS] at hhits ⊢; omega) hres
            with h | h | h
          · obtain ⟨p, hp, hc⟩ := h
            exact Or.inl ⟨p, List.mem_cons_of_mem _ hp, hc⟩
          · obtain ⟨pre, post, s2, hrun⟩ := h
            exact Or.inr (Or.inl ⟨size :: pre, post, s2,
              by rw [hps, hrun, List.cons_append]⟩)
          · obtain ⟨s2, hsome2, htake⟩ := h
            have hs2 : s2 = size := by
              injection hsome2 with h2
              exact h2.symm
            subst hs2
            refine Or.inr (Or.inr ⟨s2, hsome, ?_⟩)
            have hcount : STABLE_CHECKS - hits = (STABLE_CHECKS - (hits + 1)) + 1 := by
              simp only [STABLE_CHECKS] at hhits ⊢
              omega
            rw [hps, hcount, List.take_succ_cons, htake, List.replicate_succ]

/-- C4: _wait_for_stable returns true only if an exclusive lock (exclusive
    open) was obtainable at some poll or three consecutive polls observed an
    unchanged file size; when the observation list is exhausted (the timeout
    elapses) without either condition, it returns false; and a poll at which
    the file does not exist continues polling rather than returning false. -/
theorem claim4_wait_for_stable (isWindows : Bool) (obs : List Poll) :
    (wait_for_stable isWindows obs = true →
      lockObtainable isWindows obs ∨ hasStableRun obs) ∧
    (¬(lockObtainable isWindows obs ∨ hasStableRun obs) →
      wait_for_stable isWindows obs = false) ∧
    (∀ rest : List Poll,
      wait_for_stable isWindows (.missing :: rest) = wait_for_stable isWindows rest) := by
  have hmain : wait_for_stable isWindows obs = true →
      lockObtainable isWindows obs ∨ hasStableRun obs := by
    intro h
    rcases wait_for_stable_loop_sound isWindows obs none 0 0
      (by simp [STABLE_CHECKS]) h with h2 | h2 | h2
    · exact Or.inl h2
    · exact Or.inr h2
    · obtain ⟨s, hsome, _⟩ := h2
      exact absurd hsome (Option.noConfusion)
  refine ⟨hmain, ?_, ?_⟩
  · intro hnot
    cases hres : wait_for_stable isWindows obs with
    | false => rfl
    | true => exact absurd (hmain hres) hnot
  · intro rest
    show (wait_for_stable_loop isWindows rest none 0 1).isSome
        = (wait_for_stable_loop isWindows rest none 0 0).isSome
    exact wait_for_stable_loop_isSome_idx isWindows rest none 0 1 0

/-- Witness for C4: at a concrete single-poll trace where the lock is
    obtainable, the implication yields the disjunction. -/
theorem claim4_wait_for_stable_witness :
    lockObtainable true [Poll.present 7 true true]
      ∨ hasStableRun [Poll.present 7 true true] :=
  (claim4_wait_for_stable true [Poll.present 7 true true]).1 (by decide)

/-- C10 counterexample: on a non-Windows platform, with four polls of an
    existing but unreadable file of constant size followed by a readable
    poll, the loop returns true at poll index 3 via the consecutive-size
    counter, not at the first readable poll (index 4); so the counter can
    decide the outcome on non-Windows platforms and _wait_for_stable does
    not return true at the first exists-and-readable poll. -/
theorem claim10_counterexample :
    wait_for_stable_loop false cexPolls none 0 0 = some 3 ∧
    firstReadableIdx cexPolls = some 4 ∧
    wait_for_stable_loop false cexPolls none 0 0 ≠ firstReadableIdx cexPolls := by
  refine ⟨by decide, by decide, by decide⟩

/-- C10 (amended): on non-Windows platforms _can_open_exclusive(path) is
    true exactly when the file can be opened for reading; consequently, when
    every earlier poll saw the file missing, _wait_for_stable returns true at
    the first poll at which the file exists and is readable. (When earlier
    polls see the file present but unreadable, the consecutive-unchanged-size
    counter can decide the outcome even on non-Windows platforms.) -/
theorem claim10_amended :
    (∀ (sz : Nat) (r l : Bool),
      can_open_exclusive false (.present sz r l) = r) ∧
    (∀ (k sz : Nat) (l : Bool) (rest : List Poll) (last : Option Nat) (hits idx : Nat),
      wait_for_stable_loop false
        (List.replicate k .missing ++ .present sz true l :: rest) last hits idx
        = some (idx + k)) := by
  constructor
  · intro sz r l
    rfl
  · intro k
    induction k with
    | zero =>
      intro sz l rest last hits idx
      simp [wait_for_stable_loop, can_open_exclusive]
    | succ n ih =>
      intro sz l rest last hits idx
      rw [List.replicate_succ, List.cons_append]
      show wait_for_stable_loop false _ last hits (idx + 1) = _
      rw [ih sz l rest last hits (idx + 1)]
      congr 1
      omega

/-- _already_processed only ever touches the ledger: queue and filesystem
    pass through. -/
theorem already_processed_state (watches : List ClientWatch) (s : DaemonState)
    (path : PyStr) :
    (already_processed watches s path).1.queue = s.queue ∧
    (already_processed watches s path).1.fs = s.fs := by
  unfold already_processed
  split
  · exact ⟨rfl, rfl⟩
  · split
    · split
      · exact ⟨rfl, rfl⟩
      · exact ⟨rfl, rfl⟩
    · exact ⟨rfl, rfl⟩

/-- When _already_processed answers false it has not changed the state. -/
theorem already_processed_false_state (watches : List ClientWatch)
    (s : DaemonState) (path : PyStr)
    (h : (already_processed watches s path).2 = false) :
    (already_processed watches s path).1 = s := by
  by_cases hmem : path ∈ s.processed
  · simp [already_processed, hmem] at h
  · rcases hfind : find_archive_path watches path with _ | ap
    · simp [already_processed, hmem, hfind]
    · by_cases hex : fsExists s.fs ap = true
      · simp [already_processed, hmem, hfind, hex] at h
      · simp [already_processed, hmem, hfind, hex]

/-- C8: when no configured client's inbound directory contains the path,
    _process_path drops it: the daemon state (ledger, queue, filesystem) is
    unchanged, the outcome is a drop (duplicate-skip or no-client, never an
    archive or a quarantine), and the result does not depend on the pipeline
    attempt or the timestamp, i.e. the pipeline is not invoked. -/
theorem claim8_no_client_drop (watches : List ClientWatch) (s : DaemonState)
    (path : PyStr) (attempt : Except PyStr Unit) (ts : PyStr)
    (hres : resolve_client_watch watches path = none) :
    (process_path watches s path attempt ts).1 = s ∧
    ((process_path watches s path attempt ts).2 = .skipped ∨
      (process_path watches s path attempt ts).2 = .noClient) ∧
    (∀ (attempt2 : Except PyStr Unit) (ts2 : PyStr),
      process_path watches s path attempt ts
        = process_path watches s path attempt2 ts2) := by
  have hfind : find_archive_path watches path = none := by
    simp [find_archive_path, hres]
  by_cases hmem : path ∈ s.processed
  · have ha : already_processed watches s path = (s, true) := by
      simp [already_processed, hmem]
    refine ⟨?_, Or.inl ?_, ?_⟩ <;> simp [process_path, ha]
  · have ha : already_processed watches s path = (s, false) := by
      simp [already_processed, hmem, hfind]
    refine ⟨?_, Or.inr ?_, ?_⟩ <;> simp [process_path, ha, hres]

/-- Witness for C8 with no configured clients. -/
theorem claim8_no_client_drop_witness :
    (process_path [] ⟨[], [], []⟩ ("x.txt".data) (.ok ()) ("t".data)).1
      = (⟨[], [], []⟩ : DaemonState) ∧
    ((process_path [] ⟨[], [], []⟩ ("x.txt".data) (.ok ()) ("t".data)).2
        = .skipped ∨
      (process_path [] ⟨[], [], []⟩ ("x.txt".data) (.ok ()) ("t".data)).2
        = .noClient) ∧
    (∀ (attempt2 : Except PyStr Unit) (ts2 : PyStr),
      process_path [] ⟨[], [], []⟩ ("x.txt".data) (.ok ()) ("t".data)
        = process_path [] ⟨[], [], []⟩ ("x.txt".data) attempt2 ts2) :=
  claim8_no_client_drop [] ⟨[], [], []⟩ ("x.txt".data) (.ok ()) ("t".data) rfl

/-- C9 counterexample: _enqueue_path stores str(Path(path)), which is not
    the path's absolute form: for the relative input "a.txt" the string
    stored in the queue and compared against the ledger is "a.txt" itself,
    which is not absolute. -/
theorem claim9_counterexample :
    strPath ("a.txt".data) = "a.txt".data ∧
    pyIsAbsolute (strPath ("a.txt".data)) = false ∧
    (enqueue_path [] ⟨[], [], []⟩ ("a.txt".data)).queue = ["a.txt".data] := by
  refine ⟨by decide, by decide, by decide⟩

/-- Segments produced by splitSeps never contain separator characters. -/
theorem splitSeps_no_sep :
    ∀ (s : PyStr), ∀ seg ∈ splitSeps s, ∀ c ∈ seg, isSep c = false
  | [], seg, hseg, c, hc => by
    simp only [splitSeps, List.mem_singleton] at hseg
    rw [hseg] at hc
    exact absurd hc (List.not_mem_nil c)
  | d :: rest, seg, hseg, c, hc => by
    by_cases hd : isSep d = true
    · simp only [splitSeps, hd, if_true, List.mem_cons] at hseg
      rcases hseg with h | h
      · rw [h] at hc
        exact absurd hc (List.not_mem_nil c)
      · exact splitSeps_no_sep rest seg h c hc
    · rw [Bool.not_eq_true] at hd
      simp only [splitSeps, hd, Bool.false_eq_true, if_false] at hseg
      rcases hsplit : splitSeps rest with _ | ⟨s1, ss⟩
      · rw [hsplit] at hseg
        simp only [List.mem_singleton] at hseg
        rw [hseg] at hc
        simp only [List.mem_singleton] at hc
        rw [hc]
        exact hd
      · rw [hsplit] at hseg
        simp only [List.mem_cons] at hseg
        rcases hseg with h | h
        · rw [h] at hc
          simp only [List.mem_cons] at hc
          rcases hc with h2 | h2
          · rw [h2]
            exact hd
          · exact splitSeps_no_sep rest s1 (by rw [hsplit]; exact List.mem_cons_self _ _) c h2
        · exact splitSeps_no_sep rest seg (by rw [hsplit]; exact List.mem_cons_of_mem _ h) c hc

/-- Rendering a rootless path whose components are non-empty and
    separator-free yields a non-absolute string. -/
theorem pyIsAbsolute_render_false (comps : List PyStr)
    (h : ∀ seg ∈ comps, seg ≠ [] ∧ ∀ c ∈ seg, isSep c = false) :
    pyIsAbsolute (renderPath ⟨false, comps⟩) = false := by
  cases comps with
  | nil => rfl
  | cons c0 cs =>
    obtain ⟨hne, hns⟩ := h c0 (List.mem_cons_self _ _)
    rcases c0 with _ | ⟨d, t⟩
    · exact absurd rfl hne
    · cases cs with
      | nil =>
        show isSep d = false
        exact hns d (List.mem_cons_self _ _)
      | cons c1 cs1 =>
        show isSep d = false
        exact hns d (List.mem_cons_self _ _)

/-- str(Path(path)) preserves absoluteness and relativeness. -/
theorem pyIsAbsolute_strPath (path : PyStr) :
    pyIsAbsolute (strPath path) = pyIsAbsolute path := by
  have hiso : (parsePath path).isAbs = pyIsAbsolute path := rfl
  rw [strPath, ← hiso]
  have hsegs : ∀ seg ∈ (parsePath path).comps,
      seg ≠ [] ∧ ∀ c ∈ seg, isSep c = false := by
    intro seg hseg
    have hmem := List.mem_filter.mp hseg
    refine ⟨?_, fun c hc => splitSeps_no_sep path seg hmem.1 c hc⟩
    intro hnil
    have h2 := hmem.2
    rw [hnil] at h2
    simp at h2
  rcases hp : parsePath path with ⟨ab, comps⟩
  rw [hp] at hsegs
  cases ab
  · exact pyIsAbsolute_render_false comps hsegs
  · rfl

/-- C9 (amended): _enqueue_path resolves the path via str(Path(path))
    before the duplicate check and queueing: the string stored in the queue
    (and compared against the ledger) is the lexical normalisation of the
    input, which is not necessarily absolute; in particular a relative input
    is stored in relative form (normalisation preserves the absolute and
    relative character of the path). -/
theorem claim9_amended (watches : List ClientWatch) (s : DaemonState)
    (path : PyStr) :
    ((enqueue_path watches s path).queue = s.queue ∨
      (enqueue_path watches s path).queue = s.queue ++ [strPath path]) ∧
    pyIsAbsolute (strPath path) = pyIsAbsolute path := by
  refine ⟨?_, pyIsAbsolute_strPath path⟩
  by_cases h : (already_processed watches s (strPath path)).2 = true
  · left
    simp only [enqueue_path, h, if_true]
    exact (already_processed_state watches s (strPath path)).1
  · right
    rw [Bool.not_eq_true] at h
    simp only [enqueue_path, h, Bool.false_eq_true, if_false]
    rw [(already_processed_state watches s (strPath path)).1]

/-- C1: _enqueue_path pushes r := str(Path(p)) onto the ingestion queue iff
    _already_processed(r) is false, and _already_processed(r) is true exactly
    when r is in the processed ledger or a file with r's basename exists in
    the archive directory of the client whose inbound directory contains r
    (assumed unique, as a client routing table determines it); when the check
    is true the queue is untouched, so no second processing attempt can
    start. -/
theorem claim1_enqueue_iff (watches : List ClientWatch) (s : DaemonState)
    (path : PyStr)
    (huniq : ∀ w1 ∈ watches, ∀ w2 ∈ watches,
      canRelativeTo (strPath path) w1.in_txt = true →
      canRelativeTo (strPath path) w2.in_txt = true → w1 = w2) :
    ((already_processed watches s (strPath path)).2 = true ↔
      (strPath path ∈ s.processed ∨
        ∃ w ∈ watches, canRelativeTo (strPath path) w.in_txt = true ∧
          fsExists s.fs (osJoin w.archive (osBasename (strPath path))) = true)) ∧
    (enqueue_path watches s path).queue
      = (if (already_processed watches s (strPath path)).2 = true
          then s.queue else s.queue ++ [strPath path]) := by
  constructor
  · constructor
    · intro h
      by_cases hmem : strPath path ∈ s.processed
      · exact Or.inl hmem
      · right
        rcases hfind : find_archive_path watches (strPath path) with _ | ap
        · simp [already_processed, hmem, hfind] at h
        · by_cases hex : fsExists s.fs ap = true
          · unfold find_archive_path at hfind
            rcases hres : resolve_client_watch watches (strPath path)
              with _ | w
            · rw [hres] at hfind
              exact absurd hfind (by simp)
            · rw [hres] at hfind
              have hap : ap = osJoin w.archive (osBasename (strPath path)) := by
                injection hfind with h2
                exact h2.symm
              have hres2 : watches.find?
                  (fun w2 => canRelativeTo (strPath path) w2.in_txt) = some w := hres
              refine ⟨w, List.mem_of_find?_eq_some hres2,
                @List.find?_some ClientWatch
                  (fun w2 => canRelativeTo (strPath path) w2.in_txt) w watches hres2,
                ?_⟩
              rw [← hap]
              exact hex
          · simp [already_processed, hmem, hfind, hex] at h
    · intro h
      by_cases hmem : strPath path ∈ s.processed
      · simp [already_processed, hmem]
      · rcases h with h | ⟨w, hw, hcan, hex⟩
        · exact absurd h hmem
        · have hsome : (watches.find?
              (fun w2 => canRelativeTo (strPath path) w2.in_txt)).isSome := by
            rw [List.find?_isSome]
            exact ⟨w, hw, hcan⟩
          rcases hres : watches.find?
              (fun w2 => canRelativeTo (strPath path) w2.in_txt) with _ | w2
          · rw [hres] at hsome
            exact absurd hsome (by simp)
          · have hw2 : w2 = w :=
              huniq w2 (List.mem_of_find?_eq_some hres) w hw
                (@List.find?_some ClientWatch
                  (fun v => canRelativeTo (strPath path) v.in_txt) w2 watches hres)
                hcan
            have hfind : find_archive_path watches (strPath path)
                = some (osJoin w.archive (osBasename (strPath path))) := by
              unfold find_archive_path resolve_client_watch
              rw [hres, hw2]
            simp [already_processed, hmem, hfind, hex]
  · by_cases h : (already_processed watches s (strPath path)).2 = true
    · simp only [enqueue_path, h, if_true]
      exact (already_processed_state watches s (strPath path)).1
    · rw [Bool.not_eq_true] at h
      simp only [enqueue_path, h, Bool.false_eq_true, if_false]
      rw [(already_processed_state watches s (strPath path)).1]

/-- Witness for C1 at a one-client configuration where the archive already
    holds a file of the same basename. -/
theorem claim1_enqueue_iff_witness :
    ((already_processed [⟨"c1".data, "in".data, "arch".data⟩]
        ⟨[], [], [("arch/a.txt".data, "old".data)]⟩
        (strPath ("in/a.txt".data))).2 = true ↔
      (strPath ("in/a.txt".data) ∈ ([] : List PyStr) ∨
        ∃ w ∈ [(⟨"c1".data, "in".data, "arch".data⟩ : ClientWatch)],
          canRelativeTo (strPath ("in/a.txt".data)) w.in_txt = true ∧
          fsExists [("arch/a.txt".data, "old".data)]
            (osJoin w.archive (osBasename (strPath ("in/a.txt".data)))) = true)) ∧
    (enqueue_path [⟨"c1".data, "in".data, "arch".data⟩]
        ⟨[], [], [("arch/a.txt".data, "old".data)]⟩ ("in/a.txt".data)).queue
      = (if (already_processed [⟨"c1".data, "in".data, "arch".data⟩]
            ⟨[], [], [("arch/a.txt".data, "old".data)]⟩
            (strPath ("in/a.txt".data))).2 = true
          then ([] : List PyStr) else [] ++ [strPath ("in/a.txt".data)]) :=
  claim1_enqueue_iff [⟨"c1".data, "in".data, "arch".data⟩]
    ⟨[], [], [("arch/a.txt".data, "old".data)]⟩ ("in/a.txt".data) (by decide)

/-- Lookup after a delete. -/
theorem fsLookup_fsRemove (fs : FS) (p q : PyStr) :
    fsLookup (fsRemove fs p) q = if q = p then none else fsLookup fs q := by
  induction fs with
  | nil => by_cases h : q = p <;> simp [fsLookup, fsRemove, h]
  | cons e fs ih =>
    rcases e with ⟨k, v⟩
    simp only [fsRemove, List.filter_cons] at ih ⊢
    by_cases hkp : k = p
    · subst hkp
      simp only [beq_self_eq_true, Bool.not_true, Bool.false_eq_true, if_false]
      rw [ih]
      by_cases hqp : q = k
      · simp [hqp]
      · simp only [if_neg hqp]
        simp [fsLookup, List.lookup_cons, beq_false_of_ne hqp]
    · have hk : (!(k == p)) = true := by
        simp only [Bool.not_eq_true', beq_eq_false_iff_ne]
        exact hkp
      simp only [hk, if_true]
      by_cases hqk : q = k
      · subst hqk
        simp [fsLookup, List.lookup_cons, hkp]
      · simp only [fsLookup, List.lookup_cons, beq_false_of_ne hqk]
        exact ih

/-- Lookup after a write. -/
theorem fsLookup_fsWrite (fs : FS) (p c q : PyStr) :
    fsLookup (fsWrite fs p c) q = if q = p then some c else fsLookup fs q := by
  have hgen : ∀ (A : FS) (r : Option PyStr), fsLookup A q = r →
      fsLookup (A ++ [(p, c)]) q
        = match r with
          | some v => some v
          | none => if q = p then some c else none := by
    intro A
    induction A with
    | nil =>
      intro r h
      simp only [fsLookup, List.lookup_nil] at h
      subst h
      by_cases hqp : q = p <;>
        simp [fsLookup, List.lookup_cons, List.nil_append, hqp,
          beq_false_of_ne]
    | cons e A ih =>
      intro r h
      rcases e with ⟨k, v⟩
      by_cases hqk : q = k
      · subst hqk
        simp only [fsLookup, List.lookup_cons, beq_self_eq_true] at h
        subst h
        simp [fsLookup, List.lookup_cons, List.cons_append]
      · simp only [fsLookup, List.lookup_cons, beq_false_of_ne hqk] at h
        have := ih r h
        simpa [fsLookup, List.lookup_cons, List.cons_append,
          beq_false_of_ne hqk] using this
  by_cases hqp : q = p
  · subst hqp
    have hrem : fsLookup (fsRemove fs q) q = none := by
      rw [fsLookup_fsRemove, if_pos rfl]
    rw [fsWrite, hgen (fsRemove fs q) none hrem]
    simp
  · rw [fsWrite, if_neg hqp]
    rcases hl : fsLookup (fsRemove fs p) q with _ | v
    · rw [hgen (fsRemove fs p) none hl]
      rw [fsLookup_fsRemove, if_neg hqp] at hl
      simp [hqp]
      exact hl.symm
    · rw [hgen (fsRemove fs p) (some v) hl]
      rw [fsLookup_fsRemove, if_neg hqp] at hl
      exact hl.symm

/-- joinComps over a final component. -/
theorem joinComps_concat : ∀ (cs : List PyStr) (n : PyStr),
    joinComps (cs ++ [n]) = if cs = [] then n else joinComps cs ++ '/' :: n
  | [], n => by simp [joinComps]
  | [c], n => by simp [joinComps]
  | c :: c2 :: cs, n => by
    show c ++ '/' :: joinComps ((c2 :: cs) ++ [n]) = _
    rw [joinComps_concat (c2 :: cs) n]
    simp [joinComps, List.append_assoc]

/-- A separator-free string splits into a single segment. -/
theorem splitSeps_sepfree : ∀ (s : PyStr),
    (∀ c ∈ s, isSep c = false) → splitSeps s = [s]
  | [], _ => rfl
  | d :: rest, h => by
    have hd : isSep d = false := h d (List.mem_cons_self _ _)
    simp only [splitSeps, hd, Bool.false_eq_true, if_false]
    rw [splitSeps_sepfree rest (fun c hc => h c (List.mem_cons_of_mem _ hc))]

/-- Splitting a separator-free segment followed by a separator. -/
theorem splitSeps_sepfree_append : ∀ (c : PyStr),
    (∀ ch ∈ c, isSep ch = false) → ∀ (r : PyStr),
      splitSeps (c ++ '/' :: r) = c :: splitSeps r
  | [], _, r => by simp [splitSeps, isSep]
  | d :: c, h, r => by
    have hd : isSep d = false := h d (List.mem_cons_self _ _)
    show splitSeps (d :: (c ++ '/' :: r)) = _
    simp only [splitSeps, hd, Bool.false_eq_true, if_false]
    rw [splitSeps_sepfree_append c (fun ch hc => h ch (List.mem_cons_of_mem _ hc)) r]

/-- splitSeps recovers the components joined by joinComps. -/
theorem splitSeps_joinComps : ∀ (comps : List PyStr), comps ≠ [] →
    (∀ seg ∈ comps, ∀ c ∈ seg, isSep c = false) →
    splitSeps (joinComps comps) = comps
  | [], hne, _ => absurd rfl hne
  | [c], _, h => by
    show splitSeps c = [c]
    exact splitSeps_sepfree c (h c (List.mem_cons_self _ _))
  | c :: c2 :: cs, _, h => by
    show splitSeps (c ++ '/' :: joinComps (c2 :: cs)) = _
    rw [splitSeps_sepfree_append c (h c (List.mem_cons_self _ _)),
      splitSeps_joinComps (c2 :: cs) (by simp)
        (fun seg hseg => h seg (List.mem_cons_of_mem _ hseg))]

/-- Parsing what renderPath produced recovers the rootless parsed path,
    when all components are plain (non-empty, not the dot, separator-free). -/
theorem parse_render_rootless (comps : List PyStr)
    (h : ∀ seg ∈ comps, seg ≠ [] ∧ seg ≠ ['.'] ∧ ∀ c ∈ seg, isSep c = false)
    (hne : comps ≠ []) :
    parsePath (renderPath ⟨false, comps⟩) = ⟨false, comps⟩ := by
  have habs : pyIsAbsolute (renderPath ⟨false, comps⟩) = false :=
    pyIsAbsolute_render_false comps (fun seg hseg => ⟨(h seg hseg).1, (h seg hseg).2.2⟩)
  have hjoin : renderPath ⟨false, comps⟩ = joinComps comps := by
    rcases comps with _ | ⟨c, cs⟩
    · exact absurd rfl hne
    · rfl
  have hsplit : splitSeps (joinComps comps) = comps :=
    splitSeps_joinComps comps hne (fun seg hseg => (h seg hseg).2.2)
  have hfilter : comps.filter (fun c => !(c == [] || c == ['.'])) = comps := by
    apply List.filter_eq_self.mpr
    intro seg hseg
    simp only [Bool.not_eq_true', Bool.or_eq_false_iff, beq_eq_false_iff_ne]
    exact ⟨(h seg hseg).1, (h seg hseg).2.1⟩
  have hiso : (parsePath (renderPath ⟨false, comps⟩)).isAbs
      = pyIsAbsolute (renderPath ⟨false, comps⟩) := rfl
  have hcomps : (parsePath (renderPath ⟨false, comps⟩)).comps = comps := by
    show ((splitSeps (renderPath ⟨false, comps⟩)).filter
      (fun c => !(c == [] || c == ['.']))) = comps
    rw [hjoin, hsplit, hfilter]
  rcases hp : parsePath (renderPath ⟨false, comps⟩) with ⟨ab, cs⟩
  rw [hp] at hiso hcomps
  simp only at hiso hcomps
  have hab : ab = false := hiso.trans habs
  rw [hab, hcomps]

/-- A file name is its stem followed by its suffix. -/
theorem pyStem_append_pySuffix (n : PyStr) : pyStem n ++ pySuffix n = n := by
  unfold pyStem pySuffix pySplitExt
  rcases n.reverse.findIdx? (fun c => c == '.') with _ | j
  · simp
  · by_cases hj : 0 < j ∧ j + 1 < n.length
    · simp only [hj, if_true]
      exact List.take_append_drop _ n
    · simp only [hj, if_false]
      simp

/-- The timestamped collision name is strictly longer than the name. -/
theorem timestamped_name_length (name ts : PyStr) :
    (timestamped_name name ts).length = name.length + 1 + ts.length := by
  have h := congrArg List.length (pyStem_append_pySuffix name)
  simp only [List.length_append] at h
  simp only [timestamped_name, List.length_append, List.length_cons]
  omega

/-- Rendering a fixed directory with different final components gives
    different strings. -/
theorem renderPath_concat_injective (ab : Bool) (dc : List PyStr)
    (n1 n2 : PyStr) (hne : n1 ≠ n2)
    (h : renderPath ⟨ab, dc ++ [n1]⟩ = renderPath ⟨ab, dc ++ [n2]⟩) : False := by
  have hj : joinComps (dc ++ [n1]) = joinComps (dc ++ [n2]) := by
    rcases ab with _ | _
    · have h1 : renderPath ⟨false, dc ++ [n1]⟩ = joinComps (dc ++ [n1]) := by
        rcases hdc : dc ++ [n1] with _ | ⟨c, cs⟩
        · exact absurd hdc (by simp)
        · rfl
      have h2 : renderPath ⟨false, dc ++ [n2]⟩ = joinComps (dc ++ [n2]) := by
        rcases hdc : dc ++ [n2] with _ | ⟨c, cs⟩
        · exact absurd hdc (by simp)
        · rfl
      rw [h1, h2] at h
      exact h
    · have h1 : renderPath ⟨true, dc ++ [n1]⟩ = '/' :: joinComps (dc ++ [n1]) := rfl
      have h2 : renderPath ⟨true, dc ++ [n2]⟩ = '/' :: joinComps (dc ++ [n2]) := rfl
      rw [h1, h2] at h
      injection h
  rw [joinComps_concat, joinComps_concat] at hj
  rcases hdc : dc with _ | ⟨c, cs⟩
  · rw [hdc] at hj
    simp only [if_pos rfl] at hj
    exact hne hj
  · rw [hdc] at hj
    simp only [hdc, if_neg (by simp : ¬(c :: cs) = [])] at hj
    have := List.append_cancel_left hj
    injection this with h2 h3
    exact hne h3

/-- Distinct final name components give distinct joined paths. -/
theorem pathJoinName_injective_name (dir n1 n2 : PyStr) (hne : n1 ≠ n2) :
    pathJoinName dir n1 ≠ pathJoinName dir n2 := by
  intro h
  exact renderPath_concat_injective (parsePath dir).isAbs (parsePath dir).comps
    n1 n2 hne h

/-- The timestamped collision name differs from the plain name. -/
theorem timestamped_name_ne (name ts : PyStr) :
    timestamped_name name ts ≠ name := by
  intro h
  have h2 := congrArg List.length h
  rw [timestamped_name_length] at h2
  omega

/-- C3: when the pipeline call succeeds, _process_path removes the file
    from its inbound location and places its content in the client's archive
    directory, under its own name, or under a timestamp-suffixed name
    exactly when a same-named archive entry already exists — and such a
    pre-existing entry is never overwritten; the original path is added to
    the processed ledger and the queue is untouched. -/
theorem claim3_success_archives (watches : List ClientWatch) (s : DaemonState)
    (path : PyStr) (w : ClientWatch) (content ts : PyStr)
    (hres : resolve_client_watch watches path = some w)
    (hmem : path ∉ s.processed)
    (hnoap : fsExists s.fs (osJoin w.archive (osBasename path)) = false)
    (hcontent : fsLookup s.fs path = some content)
    (hout : ∀ nm, path ≠ pathJoinName w.archive nm) :
    ∃ nm, (nm = pyName path ∨ nm = timestamped_name (pyName path) ts) ∧
      (process_path watches s path (.ok ()) ts).2
        = .archived (pathJoinName w.archive nm) ∧
      fsLookup (process_path watches s path (.ok ()) ts).1.fs path = none ∧
      fsLookup (process_path watches s path (.ok ()) ts).1.fs
        (pathJoinName w.archive nm) = some content ∧
      (fsExists s.fs (pathJoinName w.archive (pyName path)) = true →
        nm = timestamped_name (pyName path) ts) ∧
      (fsExists s.fs (pathJoinName w.archive (pyName path)) = false →
        nm = pyName path) ∧
      (∀ c0, fsLookup s.fs (pathJoinName w.archive (pyName path)) = some c0 →
        fsLookup (process_path watches s path (.ok ()) ts).1.fs
          (pathJoinName w.archive (pyName path)) = some c0) ∧
      path ∈ (process_path watches s path (.ok ()) ts).1.processed ∧
      (process_path watches s path (.ok ()) ts).1.queue = s.queue := by
  have hfind : find_archive_path watches path
      = some (osJoin w.archive (osBasename path)) := by
    simp [find_archive_path, hres]
  have halready : already_processed watches s path = (s, false) := by
    simp [already_processed, hmem, hfind, hnoap]
  have hex : fsExists s.fs path = true := by simp [fsExists, hcontent]
  by_cases hcol : fsExists s.fs (pathJoinName w.archive (pyName path)) = true
  · -- collision: the timestamped destination is used
    have harc : archive_file s.fs path w.archive ts
        = some (fsWrite (fsRemove s.fs path)
            (pathJoinName w.archive (timestamped_name (pyName path) ts)) content,
          pathJoinName w.archive (timestamped_name (pyName path) ts)) := by
      simp only [archive_file, hcol, if_true]
      simp [pyReplace, hcontent, fsWrite]
    have hpp : process_path watches s path (.ok ()) ts
        = (mark_processed
            { s with fs := (fsWrite (fsRemove s.fs path)
                (pathJoinName w.archive (timestamped_name (pyName path) ts))
                content) } path,
          .archived (pathJoinName w.archive (timestamped_name (pyName path) ts))) := by
      simp [process_path, halready, hres, hex, harc]
    have hnedest : pathJoinName w.archive (pyName path)
        ≠ pathJoinName w.archive (timestamped_name (pyName path) ts) :=
      pathJoinName_injective_name _ _ _
        (fun h => timestamped_name_ne (pyName path) ts h.symm)
    refine ⟨timestamped_name (pyName path) ts, Or.inr rfl, ?_, ?_, ?_, ?_, ?_,
      ?_, ?_, ?_⟩
    · rw [hpp]
    · rw [hpp]
      show fsLookup (fsWrite (fsRemove s.fs path) _ content) path = none
      rw [fsLookup_fsWrite,
        if_neg (hout (timestamped_name (pyName path) ts)),
        fsLookup_fsRemove, if_pos rfl]
    · rw [hpp]
      show fsLookup (fsWrite (fsRemove s.fs path) _ content) _ = some content
      rw [fsLookup_fsWrite, if_pos rfl]
    · intro _
      rfl
    · intro hfalse
      rw [hcol] at hfalse
      exact absurd hfalse (by simp)
    · intro c0 h0
      rw [hpp]
      show fsLookup (fsWrite (fsRemove s.fs path) _ content) _ = some c0
      rw [fsLookup_fsWrite, if_neg hnedest, fsLookup_fsRemove,
        if_neg (fun h => hout (pyName path) h.symm)]
      exact h0
    · rw [hpp]
      exact List.mem_append_right _ (List.mem_cons_self _ _)
    · rw [hpp]
      rfl
  · -- no collision: the plain name is used
    have hcol2 : fsExists s.fs (pathJoinName w.archive (pyName path)) = false := by
      rw [Bool.not_eq_true] at hcol
      exact hcol
    have harc : archive_file s.fs path w.archive ts
        = some (fsWrite (fsRemove s.fs path)
            (pathJoinName w.archive (pyName path)) content,
          pathJoinName w.archive (pyName path)) := by
      simp only [archive_file, hcol2, Bool.false_eq_true, if_false]
      simp [pyReplace, hcontent, fsWrite]
    have hpp : process_path watches s path (.ok ()) ts
        = (mark_processed
            { s with fs := (fsWrite (fsRemove s.fs path)
                (pathJoinName w.archive (pyName path)) content) } path,
          .archived (pathJoinName w.archive (pyName path))) := by
      simp [process_path, halready, hres, hex, harc]
    refine ⟨pyName path, Or.inl rfl, ?_, ?_, ?_, ?_, ?_, ?_, ?_, ?_⟩
    · rw [hpp]
    · rw [hpp]
      show fsLookup (fsWrite (fsRemove s.fs path) _ content) path = none
      rw [fsLookup_fsWrite, if_neg (hout (pyName path)),
        fsLookup_fsRemove, if_pos rfl]
    · rw [hpp]
      show fsLookup (fsWrite (fsRemove s.fs path) _ content) _ = some content
      rw [fsLookup_fsWrite, if_pos rfl]
    · intro htrue
      rw [hcol2] at htrue
      exact absurd htrue (by simp)
    · intro _
      rfl
    · intro c0 h0
      have : fsExists s.fs (pathJoinName w.archive (pyName path)) = true := by
        simp [fsExists, h0]
      rw [hcol2] at this
      exact absurd this (by simp)
    · rw [hpp]
      exact List.mem_append_right _ (List.mem_cons_self _ _)
    · rw [hpp]
      rfl

/-- Witness for C3 at a concrete one-client, no-collision configuration. -/
theorem claim3_success_archives_witness :
    ∃ nm, (nm = pyName ("in/a.txt".data) ∨
        nm = timestamped_name (pyName ("in/a.txt".data)) ("20260101".data)) ∧
      (process_path [⟨"c1".data, "in".data, "arch".data⟩]
          ⟨[], [], [("in/a.txt".data, "hello".data)]⟩ ("in/a.txt".data)
          (.ok ()) ("20260101".data)).2
        = .archived (pathJoinName ("arch".data) nm) ∧
      fsLookup (process_path [⟨"c1".data, "in".data, "arch".data⟩]
          ⟨[], [], [("in/a.txt".data, "hello".data)]⟩ ("in/a.txt".data)
          (.ok ()) ("20260101".data)).1.fs ("in/a.txt".data) = none ∧
      fsLookup (process_path [⟨"c1".data, "in".data, "arch".data⟩]
          ⟨[], [], [("in/a.txt".data, "hello".data)]⟩ ("in/a.txt".data)
          (.ok ()) ("20260101".data)).1.fs
        (pathJoinName ("arch".data) nm) = some ("hello".data) ∧
      (fsExists [("in/a.txt".data, "hello".data)]
          (pathJoinName ("arch".data) (pyName ("in/a.txt".data))) = true →
        nm = timestamped_name (pyName ("in/a.txt".data)) ("20260101".data)) ∧
      (fsExists [("in/a.txt".data, "hello".data)]
          (pathJoinName ("arch".data) (pyName ("in/a.txt".data))) = false →
        nm = pyName ("in/a.txt".data)) ∧
      (∀ c0, fsLookup [("in/a.txt".data, "hello".data)]
          (pathJoinName ("arch".data) (pyName ("in/a.txt".data))) = some c0 →
        fsLookup (process_path [⟨"c1".data, "in".data, "arch".data⟩]
            ⟨[], [], [("in/a.txt".data, "hello".data)]⟩ ("in/a.txt".data)
            (.ok ()) ("20260101".data)).1.fs
          (pathJoinName ("arch".data) (pyName ("in/a.txt".data))) = some c0) ∧
      ("in/a.txt".data) ∈ (process_path [⟨"c1".data, "in".data, "arch".data⟩]
          ⟨[], [], [("in/a.txt".data, "hello".data)]⟩ ("in/a.txt".data)
          (.ok ()) ("20260101".data)).1.processed ∧
      (process_path [⟨"c1".data, "in".data, "arch".data⟩]
          ⟨[], [], [("in/a.txt".data, "hello".data)]⟩ ("in/a.txt".data)
          (.ok ()) ("20260101".data)).1.queue = [] :=
  claim3_success_archives [⟨"c1".data, "in".data, "arch".data⟩]
    ⟨[], [], [("in/a.txt".data, "hello".data)]⟩ ("in/a.txt".data)
    ⟨"c1".data, "in".data, "arch".data⟩ ("hello".data) ("20260101".data)
    (by decide) (by decide) (by decide) (by decide)
    (fun nm h => by
      have h2 : List.head? ("in/a.txt".data)
          = List.head? (pathJoinName ("arch".data) nm) := congrArg List.head? h
      have h3 : List.head? (pathJoinName ("arch".data) nm) = some 'a' := rfl
      rw [h3] at h2
      exact absurd h2 (by decide))

/-- A non-empty file name extracted by Path(...).name is a plain component:
    not the dot, and separator-free. -/
theorem pyName_plain (path : PyStr) (h : pyName path ≠ []) :
    pyName path ≠ ['.'] ∧ ∀ c ∈ pyName path, isSep c = false := by
  rcases hg : (parsePath path).comps.getLast? with _ | nm
  · exact absurd (by simp [pyName, hg]) h
  · have hmemc : nm ∈ (parsePath path).comps := List.mem_of_getLast?_eq_some hg
    have hfil := List.mem_filter.mp hmemc
    have hnm : pyName path = nm := by simp [pyName, hg]
    constructor
    · rw [hnm]
      have h2 := hfil.2
      simp only [Bool.not_eq_true', Bool.or_eq_false_iff, beq_eq_false_iff_ne] at h2
      exact h2.2
    · rw [hnm]
      exact fun c hc => splitSeps_no_sep path nm hfil.1 c hc

/-- Characters of the stem are characters of the name. -/
theorem pyStem_subset (n : PyStr) : ∀ c ∈ pyStem n, c ∈ n := by
  intro c hc
  rw [← pyStem_append_pySuffix n]
  exact List.mem_append_left _ hc

/-- Characters of the suffix are characters of the name. -/
theorem pySuffix_subset (n : PyStr) : ∀ c ∈ pySuffix n, c ∈ n := by
  intro c hc
  rw [← pyStem_append_pySuffix n]
  exact List.mem_append_right _ hc

/-- The timestamped collision name of a plain name is a plain component,
    when the timestamp is separator-free. -/
theorem timestamped_plain (name ts : PyStr)
    (hn1 : name ≠ []) (hn : ∀ c ∈ name, isSep c = false)
    (hts : ∀ c ∈ ts, isSep c = false) :
    timestamped_name name ts ≠ [] ∧ timestamped_name name ts ≠ ['.'] ∧
      ∀ c ∈ timestamped_name name ts, isSep c = false := by
  have hlen := timestamped_name_length name ts
  have hpos : 0 < name.length := List.length_pos.mpr hn1
  refine ⟨?_, ?_, ?_⟩
  · intro h
    have h2 := congrArg List.length h
    rw [hlen] at h2
    simp only [List.length_nil] at h2
    omega
  · intro h
    have h2 := congrArg List.length h
    rw [hlen] at h2
    simp only [List.length_cons, List.length_nil] at h2
    omega
  · intro c hc
    have hc2 : c ∈ (pyStem name ++ ('_' :: ts)) ++ pySuffix name := by
      unfold timestamped_name at hc
      exact hc
    rcases List.mem_append.mp hc2 with h | h
    · rcases List.mem_append.mp h with h2 | h2
      · exact hn c (pyStem_subset name c h2)
      · rcases List.mem_cons.mp h2 with rfl | h3
        · rfl
        · exact hts c h3
    · exact hn c (pySuffix_subset name c h)

/-- All components of the quarantine directory are plain, given a plain
    client identifier. -/
theorem failuresDir_comps_plain (cid : PyStr)
    (h1 : cid ≠ []) (h2 : cid ≠ ['.']) (h3 : ∀ c ∈ cid, isSep c = false) :
    ∀ seg ∈ (failuresDir cid).comps,
      seg ≠ [] ∧ seg ≠ ['.'] ∧ ∀ c ∈ seg, isSep c = false := by
  have hcomps : (failuresDir cid).comps
      = ("D:".data) :: ("LabelOps".data) :: ("Clients".data)
        :: cid :: [("FAILURES".data)] := rfl
  intro seg hseg
  rw [hcomps] at hseg
  simp only [List.mem_cons] at hseg
  rcases hseg with rfl | rfl | rfl | rfl | rfl | h
  · exact ⟨by decide, by decide, by decide⟩
  · exact ⟨by decide, by decide, by decide⟩
  · exact ⟨by decide, by decide, by decide⟩
  · exact ⟨h1, h2, h3⟩
  · exact ⟨by decide, by decide, by decide⟩
  · exact absurd h (List.not_mem_nil seg)

/-- Rendering a rootless directory plus a final component is never the
    empty string, when the directory part is non-empty. -/
theorem renderPath_concat_ne_nil (dc : List PyStr) (nm : PyStr)
    (hdc : dc ≠ []) : renderPath ⟨false, dc ++ [nm]⟩ ≠ [] := by
  intro h
  have hjoin : renderPath ⟨false, dc ++ [nm]⟩ = joinComps (dc ++ [nm]) := by
    rcases hdcnm : dc ++ [nm] with _ | ⟨c, cs⟩
    · exact absurd hdcnm (by simp)
    · rfl
  rw [hjoin, joinComps_concat, if_neg hdc] at h
  exact absurd h (by simp)

/-- with_suffix on a rendered directory-plus-name path replaces the name's
    extension, keeping the directory. -/
theorem pyWithSuffix_concat (dc : List PyStr) (nm suf : PyStr)
    (hplain : ∀ seg ∈ dc, seg ≠ [] ∧ seg ≠ ['.'] ∧ ∀ c ∈ seg, isSep c = false)
    (hnm1 : nm ≠ []) (hnm2 : nm ≠ ['.'])
    (hnm3 : ∀ c ∈ nm, isSep c = false) :
    pyWithSuffix (renderPath ⟨false, dc ++ [nm]⟩) suf
      = renderPath ⟨false, dc ++ [pyStem nm ++ suf]⟩ := by
  have hparse : parsePath (renderPath ⟨false, dc ++ [nm]⟩)
      = ⟨false, dc ++ [nm]⟩ := by
    apply parse_render_rootless
    · intro seg hseg
      rcases List.mem_append.mp hseg with h | h
      · exact hplain seg h
      · simp only [List.mem_singleton] at h
        rw [h]
        exact ⟨hnm1, hnm2, hnm3⟩
    · simp
  simp only [pyWithSuffix, hparse, List.dropLast_concat, List.getLast?_concat,
    Option.getD_some]

/-- The quarantine directory always has components. -/
theorem failuresDir_comps_ne_nil (cid : PyStr) : (failuresDir cid).comps ≠ [] := by
  have hc : (failuresDir cid).comps
      = ("D:".data) :: ("LabelOps".data) :: ("Clients".data)
        :: cid :: [("FAILURES".data)] := rfl
  rw [hc]
  simp

/-- Rendering a rootless non-empty directory plus a final component joins
    with a separator. -/
theorem renderPath_concat_eq (dc : List PyStr) (nm : PyStr) (hdc : dc ≠ []) :
    renderPath ⟨false, dc ++ [nm]⟩ = joinComps dc ++ '/' :: nm := by
  have hjoin : renderPath ⟨false, dc ++ [nm]⟩ = joinComps (dc ++ [nm]) := by
    rcases hdcnm : dc ++ [nm] with _ | ⟨c, cs⟩
    · exact absurd hdcnm (by simp)
    · rfl
  rw [hjoin, joinComps_concat, if_neg hdc]

/-- A quarantine destination is never the empty string. -/
theorem quarantinePath_ne_nil (cid nm : PyStr) : quarantinePath cid nm ≠ [] :=
  renderPath_concat_ne_nil (failuresDir cid).comps nm (failuresDir_comps_ne_nil cid)

/-- Distinct final name components give distinct quarantine destinations. -/
theorem quarantinePath_injective_name (cid n1 n2 : PyStr) (hne : n1 ≠ n2) :
    quarantinePath cid n1 ≠ quarantinePath cid n2 := fun h =>
  renderPath_concat_injective (failuresDir cid).isAbs (failuresDir cid).comps
    n1 n2 hne h

/-- with_suffix on a quarantine destination replaces the quarantined name's
    extension inside the same quarantine directory. -/
theorem pyWithSuffix_quarantine (cid nm suf : PyStr)
    (hcid1 : cid ≠ []) (hcid2 : cid ≠ ['.'])
    (hcid3 : ∀ c ∈ cid, isSep c = false)
    (hnm1 : nm ≠ []) (hnm2 : nm ≠ ['.'])
    (hnm3 : ∀ c ∈ nm, isSep c = false) :
    pyWithSuffix (quarantinePath cid nm) suf
      = quarantinePath cid (pyStem nm ++ suf) :=
  pyWithSuffix_concat (failuresDir cid).comps nm suf
    (failuresDir_comps_plain cid hcid1 hcid2 hcid3) hnm1 hnm2 hnm3

/-- A quarantine destination whose final component ends in a given suffix
    string ends in that suffix as a whole string. -/
theorem quarantinePath_endsWith (cid x suf : PyStr) :
    pyEndsWith (quarantinePath cid (x ++ suf)) suf = true := by
  have hdc : (failuresDir cid).comps ≠ [] := failuresDir_comps_ne_nil cid
  have hq : quarantinePath cid (x ++ suf)
      = joinComps (failuresDir cid).comps ++ '/' :: (x ++ suf) :=
    renderPath_concat_eq (failuresDir cid).comps (x ++ suf) hdc
  show decide (suf <:+ quarantinePath cid (x ++ suf)) = true
  apply decide_eq_true
  rw [hq]
  have h2 : joinComps (failuresDir cid).comps ++ '/' :: (x ++ suf)
      = (joinComps (failuresDir cid).comps ++ '/' :: x) ++ suf := by
    rw [List.append_assoc]
    rfl
  rw [h2]
  exact List.suffix_append _ _

/-- Path.suffix keeps only the final dot of a name, so it is never the
    two-dot string ".error.txt". -/
theorem pySuffix_ne_error (nm : PyStr) :
    pySuffix nm ≠ (".error.txt".data) := by
  unfold pySuffix pySplitExt
  rcases hf : nm.reverse.findIdx? (fun c => c == '.') with _ | j
  · intro h
    have h2 : ([] : PyStr) = (".error.txt".data) := h
    exact absurd (congrArg List.length h2) (by decide)
  · show (if 0 < j ∧ j + 1 < nm.length then
        (nm.take (nm.length - 1 - j), nm.drop (nm.length - 1 - j))
      else (nm, [])).2 ≠ (".error.txt".data)
    by_cases hj : 0 < j ∧ j + 1 < nm.length
    · rw [if_pos hj]
      intro he
      have he2 : nm.drop (nm.length - 1 - j) = (".error.txt".data) := he
      obtain ⟨hj1, hj2⟩ := hj
      obtain ⟨hjlen, hpj, hmin⟩ := List.findIdx?_eq_some_iff_getElem.mp hf
      have hrevlen : nm.reverse.length = nm.length := List.length_reverse nm
      have hlen10 : (nm.drop (nm.length - 1 - j)).length = 10 := by
        rw [he2]
        rfl
      have hdroplen : (nm.drop (nm.length - 1 - j)).length
          = nm.length - (nm.length - 1 - j) := List.length_drop _ _
      have hj9 : j = 9 := by
        rw [hdroplen] at hlen10
        omega
      have hrev : nm.reverse = (nm.drop (nm.length - 1 - j)).reverse
          ++ (nm.take (nm.length - 1 - j)).reverse := by
        conv_lhs => rw [← List.take_append_drop (nm.length - 1 - j) nm]
        rw [List.reverse_append]
      have h3len : 3 < nm.reverse.length := by
        rw [hrevlen]
        omega
      have hg3 : nm.reverse[3]? = some '.' := by
        rw [hrev, he2]
        rw [List.getElem?_append_left (by decide)]
        rfl
      have hg3e : nm.reverse[3] = '.' := by
        rw [List.getElem?_eq_getElem h3len] at hg3
        exact Option.some.inj hg3
      have hcontra := hmin 3 (by omega)
      have hfin : (nm.reverse[3] == '.') = true := by
        rw [hg3e]
        decide
      exact hcontra hfin
    · rw [if_neg hj]
      intro h
      have h2 : ([] : PyStr) = (".error.txt".data) := h
      exact absurd (congrArg List.length h2) (by decide)

/-- Appending ".error.txt" to a stem never reproduces the original name. -/
theorem pyStem_append_error_ne (nm : PyStr) :
    pyStem nm ++ (".error.txt".data) ≠ nm := by
  intro h
  have h2 := pyStem_append_pySuffix nm
  have h3 : pyStem nm ++ (".error.txt".data) = pyStem nm ++ pySuffix nm :=
    h.trans h2.symm
  exact pySuffix_ne_error nm (List.append_cancel_left h3).symm

/-- C2: when reading the file or the pipeline call raises, _process_path
    moves the file into the client's FAILURES quarantine directory — under
    its own name, or under a timestamp-suffixed name exactly when a
    same-named quarantine entry already exists — writes a sibling
    .error.txt file holding the failure detail next to it, and adds the
    original path to the processed ledger, leaving the queue untouched. -/
theorem claim2_failure_quarantines (watches : List ClientWatch)
    (s : DaemonState) (path : PyStr) (w : ClientWatch)
    (content detail ts : PyStr)
    (hres : resolve_client_watch watches path = some w)
    (hmem : path ∉ s.processed)
    (hnoap : fsExists s.fs (osJoin w.archive (osBasename path)) = false)
    (hcontent : fsLookup s.fs path = some content)
    (hname : pyName path ≠ [])
    (hcid1 : w.client_id ≠ []) (hcid2 : w.client_id ≠ ['.'])
    (hcid3 : ∀ c ∈ w.client_id, isSep c = false)
    (hts : ∀ c ∈ ts, isSep c = false)
    (hout : ∀ nm, path ≠ quarantinePath w.client_id nm) :
    ∃ nm, (nm = pyName path ∨ nm = timestamped_name (pyName path) ts) ∧
      (process_path watches s path (.error detail) ts).2
        = .quarantined (quarantinePath w.client_id nm) ∧
      fsLookup (process_path watches s path (.error detail) ts).1.fs path
        = none ∧
      fsLookup (process_path watches s path (.error detail) ts).1.fs
        (quarantinePath w.client_id nm) = some content ∧
      pyWithSuffix (quarantinePath w.client_id nm) (".error.txt".data)
        = quarantinePath w.client_id (pyStem nm ++ (".error.txt".data)) ∧
      pyEndsWith (quarantinePath w.client_id
          (pyStem nm ++ (".error.txt".data))) (".error.txt".data) = true ∧
      fsLookup (process_path watches s path (.error detail) ts).1.fs
        (quarantinePath w.client_id (pyStem nm ++ (".error.txt".data)))
        = some detail ∧
      (fsExists s.fs (quarantinePath w.client_id (pyName path)) = true →
        nm = timestamped_name (pyName path) ts) ∧
      (fsExists s.fs (quarantinePath w.client_id (pyName path)) = false →
        nm = pyName path) ∧
      path ∈ (process_path watches s path (.error detail) ts).1.processed ∧
      (process_path watches s path (.error detail) ts).1.queue = s.queue := by
  have hfind : find_archive_path watches path
      = some (osJoin w.archive (osBasename path)) := by
    simp [find_archive_path, hres]
  have halready : already_processed watches s path = (s, false) := by
    simp [already_processed, hmem, hfind, hnoap]
  have hex : fsExists s.fs path = true := by simp [fsExists, hcontent]
  have hpn2 := pyName_plain path hname
  have htp := timestamped_plain (pyName path) ts hname hpn2.2 hts
  by_cases hcol : fsExists s.fs (quarantinePath w.client_id (pyName path)) = true
  · -- collision: the timestamped quarantine name is used
    have hmov : move_to_failures s.fs path w.client_id ts
        = (fsWrite (fsRemove s.fs path)
            (quarantinePath w.client_id (timestamped_name (pyName path) ts))
            content,
          quarantinePath w.client_id (timestamped_name (pyName path) ts)) := by
      simp only [move_to_failures, hcol, if_true]
      simp [pyReplace, hcontent, fsWrite]
    have hws : pyWithSuffix
        (quarantinePath w.client_id (timestamped_name (pyName path) ts))
        (".error.txt".data)
        = quarantinePath w.client_id
            (pyStem (timestamped_name (pyName path) ts)
              ++ (".error.txt".data)) :=
      pyWithSuffix_quarantine w.client_id _ _ hcid1 hcid2 hcid3
        htp.1 htp.2.1 htp.2.2
    have hhf : handle_failure s path w.client_id detail ts
        = (mark_processed
            { s with fs := (fsWrite
                (fsWrite (fsRemove s.fs path)
                  (quarantinePath w.client_id
                    (timestamped_name (pyName path) ts)) content)
                (quarantinePath w.client_id
                  (pyStem (timestamped_name (pyName path) ts)
                    ++ (".error.txt".data))) detail) } path,
          .quarantined (quarantinePath w.client_id
            (timestamped_name (pyName path) ts))) := by
      simp only [handle_failure, hmov]
      rw [write_failure_details, if_neg (quarantinePath_ne_nil _ _), hws]
    have hpp : process_path watches s path (.error detail) ts
        = (mark_processed
            { s with fs := (fsWrite
                (fsWrite (fsRemove s.fs path)
                  (quarantinePath w.client_id
                    (timestamped_name (pyName path) ts)) content)
                (quarantinePath w.client_id
                  (pyStem (timestamped_name (pyName path) ts)
                    ++ (".error.txt".data))) detail) } path,
          .quarantined (quarantinePath w.client_id
            (timestamped_name (pyName path) ts))) := by
      simp [process_path, halready, hres, hex, hhf]
    have hne1 : quarantinePath w.client_id (timestamped_name (pyName path) ts)
        ≠ quarantinePath w.client_id
            (pyStem (timestamped_name (pyName path) ts)
              ++ (".error.txt".data)) :=
      quarantinePath_injective_name _ _ _
        (fun h => pyStem_append_error_ne (timestamped_name (pyName path) ts)
          h.symm)
    refine ⟨timestamped_name (pyName path) ts, Or.inr rfl, ?_, ?_, ?_, ?_,
      ?_, ?_, ?_, ?_, ?_, ?_⟩
    · rw [hpp]
    · rw [hpp]
      show fsLookup (fsWrite (fsWrite (fsRemove s.fs path) _ content) _ detail)
        path = none
      rw [fsLookup_fsWrite,
        if_neg (hout (pyStem (timestamped_name (pyName path) ts)
          ++ (".error.txt".data))),
        fsLookup_fsWrite,
        if_neg (hout (timestamped_name (pyName path) ts)),
        fsLookup_fsRemove, if_pos rfl]
    · rw [hpp]
      show fsLookup (fsWrite (fsWrite (fsRemove s.fs path) _ content) _ detail)
        _ = some content
      rw [fsLookup_fsWrite, if_neg hne1, fsLookup_fsWrite, if_pos rfl]
    · exact hws
    · exact quarantinePath_endsWith w.client_id
        (pyStem (timestamped_name (pyName path) ts)) (".error.txt".data)
    · rw [hpp]
      show fsLookup (fsWrite (fsWrite (fsRemove s.fs path) _ content) _ detail)
        _ = some detail
      rw [fsLookup_fsWrite, if_pos rfl]
    · intro _
      rfl
    · intro hfalse
      rw [hcol] at hfalse
      exact absurd hfalse (by simp)
    · rw [hpp]
      exact List.mem_append_right _ (List.mem_cons_self _ _)
    · rw [hpp]
      rfl
  · -- no collision: the plain name is used
    have hcol2 : fsExists s.fs (quarantinePath w.client_id (pyName path))
        = false := by
      rw [Bool.not_eq_true] at hcol
      exact hcol
    have hmov : move_to_failures s.fs path w.client_id ts
        = (fsWrite (fsRemove s.fs path)
            (quarantinePath w.client_id (pyName path)) content,
          quarantinePath w.client_id (pyName path)) := by
      simp only [move_to_failures, hcol2, Bool.false_eq_true, if_false]
      simp [pyReplace, hcontent, fsWrite]
    have hws : pyWithSuffix (quarantinePath w.client_id (pyName path))
        (".error.txt".data)
        = quarantinePath w.client_id
            (pyStem (pyName path) ++ (".error.txt".data)) :=
      pyWithSuffix_quarantine w.client_id _ _ hcid1 hcid2 hcid3
        hname hpn2.1 hpn2.2
    have hhf : handle_failure s path w.client_id detail ts
        = (mark_processed
            { s with fs := (fsWrite
                (fsWrite (fsRemove s.fs path)
                  (quarantinePath w.client_id (pyName path)) content)
                (quarantinePath w.client_id
                  (pyStem (pyName path) ++ (".error.txt".data))) detail) } path,
          .quarantined (quarantinePath w.client_id (pyName path))) := by
      simp only [handle_failure, hmov]
      rw [write_failure_details, if_neg (quarantinePath_ne_nil _ _), hws]
    have hpp : process_path watches s path (.error detail) ts
        = (mark_processed
            { s with fs := (fsWrite
                (fsWrite (fsRemove s.fs path)
                  (quarantinePath w.client_id (pyName path)) content)
                (quarantinePath w.client_id
                  (pyStem (pyName path) ++ (".error.txt".data))) detail) } path,
          .quarantined (quarantinePath w.client_id (pyName path))) := by
      simp [process_path, halready, hres, hex, hhf]
    have hne1 : quarantinePath w.client_id (pyName path)
        ≠ quarantinePath w.client_id
            (pyStem (pyName path) ++ (".error.txt".data)) :=
      quarantinePath_injective_name _ _ _
        (fun h => pyStem_append_error_ne (pyName path) h.symm)
    refine ⟨pyName path, Or.inl rfl, ?_, ?_, ?_, ?_, ?_, ?_, ?_, ?_, ?_, ?_⟩
    · rw [hpp]
    · rw [hpp]
      show fsLookup (fsWrite (fsWrite (fsRemove s.fs path) _ content) _ detail)
        path = none
      rw [fsLookup_fsWrite,
        if_neg (hout (pyStem (pyName path) ++ (".error.txt".data))),
        fsLookup_fsWrite, if_neg (hout (pyName path)),
        fsLookup_fsRemove, if_pos rfl]
    · rw [hpp]
      show fsLookup (fsWrite (fsWrite (fsRemove s.fs path) _ content) _ detail)
        _ = some content
      rw [fsLookup_fsWrite, if_neg hne1, fsLookup_fsWrite, if_pos rfl]
    · exact hws
    · exact quarantinePath_endsWith w.client_id (pyStem (pyName path))
        (".error.txt".data)
    · rw [hpp]
      show fsLookup (fsWrite (fsWrite (fsRemove s.fs path) _ content) _ detail)
        _ = some detail
      rw [fsLookup_fsWrite, if_pos rfl]
    · intro htrue
      rw [hcol2] at htrue
      exact absurd htrue (by simp)
    · intro _
      rfl
    · rw [hpp]
      exact List.mem_append_right _ (List.mem_cons_self _ _)
    · rw [hpp]
      rfl

/-- Witness for C2 at a concrete one-client, no-collision configuration
    with a failing pipeline call. -/
theorem claim2_failure_quarantines_witness :
    ∃ nm, (nm = pyName ("in/a.txt".data) ∨
        nm = timestamped_name (pyName ("in/a.txt".data)) ("20260101".data)) ∧
      (process_path [⟨"c1".data, "in".data, "arch".data⟩]
          ⟨[], [], [("in/a.txt".data, "hello".data)]⟩ ("in/a.txt".data)
          (.error ("boom".data)) ("20260101".data)).2
        = .quarantined (quarantinePath ("c1".data) nm) ∧
      fsLookup (process_path [⟨"c1".data, "in".data, "arch".data⟩]
          ⟨[], [], [("in/a.txt".data, "hello".data)]⟩ ("in/a.txt".data)
          (.error ("boom".data)) ("20260101".data)).1.fs ("in/a.txt".data)
        = none ∧
      fsLookup (process_path [⟨"c1".data, "in".data, "arch".data⟩]
          ⟨[], [], [("in/a.txt".data, "hello".data)]⟩ ("in/a.txt".data)
          (.error ("boom".data)) ("20260101".data)).1.fs
        (quarantinePath ("c1".data) nm) = some ("hello".data) ∧
      pyWithSuffix (quarantinePath ("c1".data) nm) (".error.txt".data)
        = quarantinePath ("c1".data) (pyStem nm ++ (".error.txt".data)) ∧
      pyEndsWith (quarantinePath ("c1".data)
          (pyStem nm ++ (".error.txt".data))) (".error.txt".data) = true ∧
      fsLookup (process_path [⟨"c1".data, "in".data, "arch".data⟩]
          ⟨[], [], [("in/a.txt".data, "hello".data)]⟩ ("in/a.txt".data)
          (.error ("boom".data)) ("20260101".data)).1.fs
        (quarantinePath ("c1".data) (pyStem nm ++ (".error.txt".data)))
        = some ("boom".data) ∧
      (fsExists [("in/a.txt".data, "hello".data)]
          (quarantinePath ("c1".data) (pyName ("in/a.txt".data))) = true →
        nm = timestamped_name (pyName ("in/a.txt".data)) ("20260101".data)) ∧
      (fsExists [("in/a.txt".data, "hello".data)]
          (quarantinePath ("c1".data) (pyName ("in/a.txt".data))) = false →
        nm = pyName ("in/a.txt".data)) ∧
      ("in/a.txt".data) ∈ (process_path [⟨"c1".data, "in".data, "arch".data⟩]
          ⟨[], [], [("in/a.txt".data, "hello".data)]⟩ ("in/a.txt".data)
          (.error ("boom".data)) ("20260101".data)).1.processed ∧
      (process_path [⟨"c1".data, "in".data, "arch".data⟩]
          ⟨[], [], [("in/a.txt".data, "hello".data)]⟩ ("in/a.txt".data)
          (.error ("boom".data)) ("20260101".data)).1.queue = [] :=
  claim2_failure_quarantines [⟨"c1".data, "in".data, "arch".data⟩]
    ⟨[], [], [("in/a.txt".data, "hello".data)]⟩ ("in/a.txt".data)
    ⟨"c1".data, "in".data, "arch".data⟩ ("hello".data) ("boom".data)
    ("20260101".data)
    (by decide) (by decide) (by decide) (by decide) (by decide)
    (by decide) (by decide) (by decide) (by decide)
    (fun nm h => by
      have h2 : List.head? ("in/a.txt".data)
          = List.head? (quarantinePath ("c1".data) nm) := congrArg List.head? h
      have h3 : List.head? (quarantinePath ("c1".data) nm) = some 'D' := rfl
      rw [h3] at h2
      exact absurd h2 (by decide))
